import Mathlib

/-!
# Verification of the any2md conversion pipeline

A shallow embedding of the pure text-processing core of the `any2md`
repository (`src/mdconv/utils.py`, `src/mdconv/converters/{docx,html,pdf}.py`,
`src/any2md/converters/docx.py`).

Strings are modelled as `List Char`.  Python regular-expression substitutions
are modelled by explicit scanners; every scanner was cross-validated against
CPython's `re` module on exhaustive small inputs and large random fuzz sets
before being fixed here.  Recursion is expressed with an explicit fuel
argument (always instantiated with the length of the input) so that every
definition is structural and evaluates inside the kernel.

External libraries (mammoth, markdownify, trafilatura, pymupdf4llm,
BeautifulSoup, the network fetcher) are treated as oracles: converter models
receive the library output (`md_text`, page counts, fetched HTML) as
parameters, exactly at the boundary where the repository's own code takes
over.
-/

/-- The set of characters Python treats as whitespace for `str.split`,
`str.strip` and the regex class `\s` (verified: the three sets coincide in
CPython 3.11 for every code point). -/
def pyWsChars : List Char :=
  [' ', '\t', '\n', '\r', '\x0b', '\x0c',
   '\x1c', '\x1d', '\x1e', '\x1f', '\u0085', ' ', ' ',
   ' ', ' ', ' ', ' ', ' ', ' ', ' ',
   ' ', ' ', ' ', ' ', ' ', ' ', ' ',
   ' ', '　']

/-- Python whitespace test (`str.isspace` for a single character). -/
def isPyWs (c : Char) : Bool := pyWsChars.contains c

/-- Horizontal whitespace, the regex class `[ \t]`. -/
def isHT (c : Char) : Bool := c == ' ' || c == '\t'

/-- Strip characters satisfying `p` from the right end of a list. -/
def rstripP (p : Char → Bool) (s : List Char) : List Char :=
  (s.reverse.dropWhile p).reverse

/-- Python `str.rstrip()` (no argument: strips whitespace). -/
def rstripWs (s : List Char) : List Char := rstripP isPyWs s

/-- The `MULTILINE` substitution `[ \t]+$ -> ""` restricted to one line:
remove trailing spaces and tabs. -/
def rstripHT (s : List Char) : List Char := rstripP isHT s

/-- Python `str.strip()` (no argument). -/
def pyStrip (s : List Char) : List Char := rstripWs (s.dropWhile isPyWs)

/-- Python `str.replace(c, rep)` for a single-character needle. -/
def replaceChar (c : Char) (rep : List Char) : List Char → List Char
  | [] => []
  | x :: t => (if x == c then rep else [x]) ++ replaceChar c rep t

section Scanners

/-- Fuelled scanner for the substitution `\n{4,} -> "\n\n\n"`: each maximal
run of `k ≥ 4` newlines is replaced by exactly three newlines; shorter runs
are kept. -/
def nlCollapseF : Nat → List Char → List Char
  | 0, _ => []
  | _ + 1, [] => []
  | n + 1, c :: t =>
    if c == '\n' then
      let run := t.takeWhile (· == '\n')
      let rest := t.dropWhile (· == '\n')
      (if 3 ≤ run.length then ['\n', '\n', '\n'] else '\n' :: run) ++
        nlCollapseF n rest
    else c :: nlCollapseF n t

/-- `re.sub(r"\n{4,}", "\n\n\n", text)`. -/
def nlCollapse (s : List Char) : List Char := nlCollapseF s.length s

/-- Fuelled scanner for `re.sub(r"[ \t]+$", "", text, flags=re.MULTILINE)`:
in multiline mode `$` matches before every `\n` and at the end of the
string, so each line loses its trailing spaces and tabs. -/
def stripLinesF : Nat → List Char → List Char
  | 0, _ => []
  | n + 1, s =>
    let line := s.takeWhile (· != '\n')
    let rest := s.dropWhile (· != '\n')
    match rest with
    | [] => rstripHT line
    | _ :: r => rstripHT line ++ '\n' :: stripLinesF n r

/-- `re.sub(r"[ \t]+$", "", text, flags=re.MULTILINE)`. -/
def stripLines (s : List Char) : List Char := stripLinesF s.length s

/-- `clean_markdown` from `src/mdconv/utils.py`: collapse newline runs,
strip trailing horizontal whitespace per line, then `text.rstrip() + "\n"`. -/
def clean_markdown (s : List Char) : List Char :=
  rstripWs (stripLines (nlCollapse s)) ++ ['\n']

end Scanners

section ScannerLemmas

theorem length_dropWhileP (p : Char → Bool) (s : List Char) :
    (s.dropWhile p).length ≤ s.length := by
  induction s with
  | nil => simp
  | cons c t ih =>
    by_cases h : p c
    · simpa [List.dropWhile_cons, h] using Nat.le_succ_of_le ih
    · simp [List.dropWhile_cons, h]

theorem nlCollapseF_fuel :
    ∀ n m s, s.length ≤ n → s.length ≤ m → nlCollapseF n s = nlCollapseF m s := by
  intro n
  induction n with
  | zero =>
    intro m s hn _
    have : s = [] := List.length_eq_zero.mp (Nat.le_zero.mp hn)
    subst this
    cases m <;> rfl
  | succ n ih =>
    intro m s hn hm
    cases s with
    | nil => cases m <;> rfl
    | cons c t =>
      cases m with
      | zero => exact absurd hm (by simp)
      | succ m =>
        simp only [List.length_cons] at hn hm
        simp only [nlCollapseF]
        by_cases h : c == '\n'
        · simp only [h, if_pos]
          have h1 : (t.dropWhile (· == '\n')).length ≤ n := by
            have := length_dropWhileP (· == '\n') t
            omega
          have h2 : (t.dropWhile (· == '\n')).length ≤ m := by
            have := length_dropWhileP (· == '\n') t
            omega
          rw [ih m _ h1 h2]
        · simp only [h, if_neg, Bool.false_eq_true, not_false_iff]
          rw [ih m t (by omega) (by omega)]

theorem stripLinesF_fuel :
    ∀ n m s, s.length ≤ n → s.length ≤ m → stripLinesF n s = stripLinesF m s := by
  intro n
  induction n with
  | zero =>
    intro m s hn _
    have : s = [] := List.length_eq_zero.mp (Nat.le_zero.mp hn)
    subst this
    cases m <;> rfl
  | succ n ih =>
    intro m s hn hm
    cases m with
    | zero =>
      have : s = [] := List.length_eq_zero.mp (Nat.le_zero.mp hm)
      subst this; rfl
    | succ m =>
      simp only [stripLinesF]
      cases hr : s.dropWhile (· != '\n') with
      | nil => rfl
      | cons d r =>
        have hlen : r.length < s.length := by
          have := length_dropWhileP (· != '\n') s
          rw [hr] at this
          simp only [List.length_cons] at this
          omega
        dsimp only
        rw [ih m r (by omega) (by omega)]

end ScannerLemmas

section ListLemmas

variable {p : Char → Bool}

theorem takeWhile_append_all {a b : List Char} (h : ∀ c ∈ a, p c) :
    (a ++ b).takeWhile p = a ++ b.takeWhile p := by
  induction a with
  | nil => simp
  | cons c t ih =>
    have hc : p c := h c (by simp)
    simp only [List.cons_append, List.takeWhile_cons, hc, if_pos]
    rw [ih (fun x hx => h x (by simp [hx]))]

theorem dropWhile_append_all {a b : List Char} (h : ∀ c ∈ a, p c) :
    (a ++ b).dropWhile p = b.dropWhile p := by
  induction a with
  | nil => simp
  | cons c t ih =>
    have hc : p c := h c (by simp)
    simp only [List.cons_append, List.dropWhile_cons, hc, if_pos]
    exact ih (fun x hx => h x (by simp [hx]))

theorem takeWhile_append_stop {a b : List Char} (h : a.dropWhile p ≠ []) :
    (a ++ b).takeWhile p = a.takeWhile p := by
  induction a with
  | nil => simp at h
  | cons c t ih =>
    by_cases hc : p c
    · simp only [List.dropWhile_cons, hc, if_pos] at h
      simp only [List.cons_append, List.takeWhile_cons, hc, if_pos]
      rw [ih h]
    · simp [List.takeWhile_cons, hc]

theorem dropWhile_append_stop {a b : List Char} (h : a.dropWhile p ≠ []) :
    (a ++ b).dropWhile p = a.dropWhile p ++ b := by
  induction a with
  | nil => simp at h
  | cons c t ih =>
    by_cases hc : p c
    · simp only [List.dropWhile_cons, hc, if_pos] at h ⊢
      simp only [List.cons_append, List.dropWhile_cons, hc, if_pos]
      exact ih h
    · simp [List.dropWhile_cons, hc]

theorem dropWhile_head_not {s r : List Char} {c : Char}
    (h : s.dropWhile p = c :: r) : p c = false := by
  induction s with
  | nil => simp at h
  | cons d t ih =>
    by_cases hd : p d
    · simp only [List.dropWhile_cons, hd, if_pos] at h
      exact ih h
    · simp only [List.dropWhile_cons, hd, if_neg, Bool.false_eq_true, not_false_iff] at h
      cases h
      exact Bool.eq_false_iff.mpr hd

theorem rstripP_nil : rstripP p [] = [] := rfl

theorem rstripP_append_all {a w : List Char} (h : ∀ c ∈ w, p c) :
    rstripP p (a ++ w) = rstripP p a := by
  unfold rstripP
  rw [List.reverse_append, dropWhile_append_all (by intro c hc; exact h c (by simpa using hc))]

theorem rstripP_eq_nil_iff {s : List Char} : rstripP p s = [] ↔ ∀ c ∈ s, p c := by
  unfold rstripP
  rw [List.reverse_eq_nil_iff, List.dropWhile_eq_nil_iff]
  constructor
  · intro h c hc; exact h c (by simpa using hc)
  · intro h c hc; exact h c (by simpa using hc)

theorem rstripP_decomp (p : Char → Bool) (s : List Char) :
    ∃ w, s = rstripP p s ++ w ∧ ∀ c ∈ w, p c := by
  refine ⟨(s.reverse.takeWhile p).reverse, ?_, ?_⟩
  · unfold rstripP
    rw [← List.reverse_append, List.takeWhile_append_dropWhile, List.reverse_reverse]
  · intro c hc
    exact List.mem_takeWhile_imp (by simpa using hc)

theorem rstripP_append_ne {a b : List Char} (h : rstripP p b ≠ []) :
    rstripP p (a ++ b) = a ++ rstripP p b := by
  unfold rstripP at h ⊢
  rw [List.reverse_append, dropWhile_append_stop (by simpa using h)]
  simp

theorem rstripP_last_not {s : List Char} {c : Char} {r : List Char}
    (h : rstripP p s = r ++ [c]) : p c = false := by
  unfold rstripP at h
  have h2 : s.reverse.dropWhile p = c :: r.reverse := by
    have := congrArg List.reverse h
    simpa using this
  exact dropWhile_head_not h2

theorem rstripP_cons_ne {c : Char} {t : List Char} (h : rstripP p t ≠ []) :
    rstripP p (c :: t) = c :: rstripP p t := by
  have h2 : rstripP p ([c] ++ t) = [c] ++ rstripP p t := rstripP_append_ne h
  simpa using h2

theorem rstripP_cons_nil {c : Char} {t : List Char} (h : ∀ x ∈ t, p x) :
    rstripP p (c :: t) = if p c then [] else [c] := by
  have h0 : rstripP p t = [] := rstripP_eq_nil_iff.mpr h
  have : rstripP p (c :: t) = rstripP p ([c] ++ t) := by simp
  rw [this, rstripP_append_all h]
  unfold rstripP
  by_cases hc : p c <;> simp [hc]

theorem rstripP_pref (p : Char → Bool) (s : List Char) : rstripP p s <+: s := by
  obtain ⟨w, hw, _⟩ := rstripP_decomp p s
  exact ⟨w, hw.symm⟩

theorem mem_rstripP {s : List Char} {c : Char} (h : c ∈ rstripP p s) : c ∈ s :=
  (rstripP_pref p s).subset h

theorem rstripP_idem (p : Char → Bool) (s : List Char) :
    rstripP p (rstripP p s) = rstripP p s := by
  unfold rstripP
  rw [List.reverse_reverse]
  congr 1
  induction s.reverse with
  | nil => simp
  | cons c t ih =>
    by_cases hc : p c
    · simp [List.dropWhile_cons, hc, ih]
    · simp [List.dropWhile_cons, hc]

end ListLemmas

section HeadingScanner

/-- `re.sub(r"\*+", "", title)`: removing every maximal run of `*` is the
same as removing every `*`. -/
def subStar (s : List Char) : List Char := s.filter (· != '*')

/-- Scanner for `re.sub(r"_+", " ", title)`; the flag records whether the
previous character belonged to a `_` run (a space is emitted at the start
of each maximal run only). -/
def subUndF : Bool → List Char → List Char
  | _, [] => []
  | prev, c :: t =>
    if c == '_' then
      if prev then subUndF true t else ' ' :: subUndF true t
    else c :: subUndF false t

/-- `re.sub(r"_+", " ", title)`. -/
def subUnd (s : List Char) : List Char := subUndF false s

/-- The two emphasis-stripping substitutions and the surrounding
`str.strip()` calls applied by `extract_title` to the raw regex group. -/
def titleOf (g : List Char) : List Char := pyStrip (subUnd (subStar (pyStrip g)))

/-- Backtracking for `\s+(.+)` when the whitespace run `m` extends to the end
of the string: the greedy `\s+` gives back characters until `(.+)` can match
a character other than `\n`, i.e. the group starts at the last position
`j ≥ 1` of `m` holding a non-newline character (everything after it in `m`
is `\n`, so the group is that single character). -/
def wsBacktrack (m : List Char) : Option (List Char) :=
  match m with
  | [] => none
  | _ :: m1 =>
    match m1.reverse.dropWhile (· == '\n') with
    | [] => none
    | c :: _ => some [c]

/-- Attempt to match `#{1,3}\s+(.+)` at the start of `s`, returning the
group `(.+)` on success.  `#{1,3}` is greedy on the maximal `#` run (a run
of 4 or more cannot match because the character after the matched hashes
must be whitespace); `\s+` is greedy with the end-of-string backtracking
delegated to `wsBacktrack`. -/
def tryHead (s : List Char) : Option (List Char) :=
  let ks := s.takeWhile (· == '#')
  let r := s.dropWhile (· == '#')
  if ks.length < 1 || 3 < ks.length then none
  else
    let m := r.takeWhile isPyWs
    let post := r.dropWhile isPyWs
    if m.isEmpty then none
    else
      match post with
      | [] => wsBacktrack m
      | _ :: _ => some (post.takeWhile (· != '\n'))

/-- `re.search(r"^#{1,3}\s+(.+)", md, re.MULTILINE)`: with the `^` anchor
(multiline) the only candidate positions are the start of the string and
every position following a `\n`, scanned left to right. -/
def findHeadingF : Nat → List Char → Option (List Char)
  | 0, _ => none
  | n + 1, s =>
    match tryHead s with
    | some g => some g
    | none =>
      match s.dropWhile (· != '\n') with
      | [] => none
      | _ :: r => findHeadingF n r

/-- First match of the heading regex over the whole text (group 1). -/
def findHeading (s : List Char) : Option (List Char) := findHeadingF s.length s

/-- `fallback.replace("_", " ").strip()`, the fallback branch of
`extract_title`. -/
def fbRepl (fb : List Char) : List Char := pyStrip (replaceChar '_' [' '] fb)

/-- `extract_title` from `src/mdconv/utils.py`. -/
def extract_title (md fallback : List Char) : List Char :=
  match findHeading md with
  | some g =>
    let T := titleOf g
    if 10 < T.length then T else fbRepl fallback
  | none => fbRepl fallback

/-- The heading branch of `extract_title` in isolation: the cleaned title of
the first regex match when it is long enough to be used, and `none` when
there is no match or the match's cleaned title has length at most 10 (in
both of the latter cases `extract_title` falls back). -/
def bigTitle (md : List Char) : Option (List Char) :=
  match findHeading md with
  | some g =>
    let T := titleOf g
    if 10 < T.length then some T else none
  | none => none

end HeadingScanner

section LineView

/-- The canonical "line core" view of a text: the list of its non-blank
lines, each stripped of trailing whitespace (leading whitespace is kept,
since it is significant for the `^#{1,3}` anchor).  This is the invariant
of a text that `clean_markdown` preserves. -/
def nePiecesF : Nat → List Char → List (List Char)
  | 0, _ => []
  | n + 1, s =>
    match s with
    | [] => []
    | c :: t =>
      if c == '\n' then nePiecesF n t
      else
        let line := c :: t.takeWhile (· != '\n')
        let rest := t.dropWhile (· != '\n')
        let core := rstripWs line
        if core.isEmpty then nePiecesF n rest else core :: nePiecesF n rest

/-- Non-blank line cores of a text. -/
def nePieces (s : List Char) : List (List Char) := nePiecesF s.length s

/-- The heading search expressed on the non-blank line cores.  A core
either fails to start a heading (search continues), matches directly
(`1`–`3` hashes followed by whitespace and some content on the same line),
or consists of hashes only, in which case the whitespace run of `\s+`
crosses the newline and the group is taken from the next non-blank line. -/
def Bne : List (List Char) → Option (List Char)
  | [] => none
  | l :: fs =>
    let ks := l.takeWhile (· == '#')
    let rest := l.dropWhile (· == '#')
    if ks.length < 1 || 3 < ks.length then Bne fs
    else
      match rest with
      | [] =>
        match fs with
        | [] => none
        | f :: _ =>
          let T := titleOf f
          if 10 < T.length then some T else none
      | d :: _ =>
        if isPyWs d then
          let T := titleOf rest
          if 10 < T.length then some T else none
        else Bne fs

end LineView

section Tokens

/-- Python `str.split()` with no arguments: maximal runs of non-whitespace
characters, with whitespace-only gaps dropped. -/
def pyTokensF : Nat → List Char → List (List Char)
  | 0, _ => []
  | n + 1, s =>
    match s with
    | [] => []
    | c :: t =>
      if isPyWs c then pyTokensF n t
      else
        (c :: t.takeWhile (fun x => !(isPyWs x))) ::
          pyTokensF n (t.dropWhile (fun x => !(isPyWs x)))

/-- `md_text.split()`. -/
def pyTokens (s : List Char) : List (List Char) := pyTokensF s.length s

end Tokens

section FuelLemmas

theorem nePiecesF_fuel :
    ∀ n m s, s.length ≤ n → s.length ≤ m → nePiecesF n s = nePiecesF m s := by
  intro n
  induction n with
  | zero =>
    intro m s hn _
    have : s = [] := List.length_eq_zero.mp (Nat.le_zero.mp hn)
    subst this
    cases m <;> rfl
  | succ n ih =>
    intro m s hn hm
    cases s with
    | nil => cases m <;> rfl
    | cons c t =>
      cases m with
      | zero => exact absurd hm (by simp)
      | succ m =>
        simp only [List.length_cons] at hn hm
        have hdrop := length_dropWhileP (· != '\n') t
        simp only [nePiecesF]
        by_cases h : c == '\n'
        · simp only [h, if_pos]
          rw [ih m t (by omega) (by omega)]
        · simp only [h, if_neg, Bool.false_eq_true, not_false_iff]
          rw [ih m (t.dropWhile (· != '\n')) (by omega) (by omega)]

theorem findHeadingF_fuel :
    ∀ n m s, s.length ≤ n → s.length ≤ m → findHeadingF n s = findHeadingF m s := by
  intro n
  induction n with
  | zero =>
    intro m s hn _
    have : s = [] := List.length_eq_zero.mp (Nat.le_zero.mp hn)
    subst this
    cases m <;> rfl
  | succ n ih =>
    intro m s hn hm
    cases m with
    | zero =>
      have : s = [] := List.length_eq_zero.mp (Nat.le_zero.mp hm)
      subst this; rfl
    | succ m =>
      simp only [findHeadingF]
      cases tryHead s with
      | some g => rfl
      | none =>
        dsimp only
        cases hr : s.dropWhile (· != '\n') with
        | nil => rfl
        | cons d r =>
          have := length_dropWhileP (· != '\n') s
          rw [hr] at this
          simp only [List.length_cons] at this
          dsimp only
          rw [ih m r (by omega) (by omega)]

theorem pyTokensF_fuel :
    ∀ n m s, s.length ≤ n → s.length ≤ m → pyTokensF n s = pyTokensF m s := by
  intro n
  induction n with
  | zero =>
    intro m s hn _
    have : s = [] := List.length_eq_zero.mp (Nat.le_zero.mp hn)
    subst this
    cases m <;> rfl
  | succ n ih =>
    intro m s hn hm
    cases s with
    | nil => cases m <;> rfl
    | cons c t =>
      cases m with
      | zero => exact absurd hm (by simp)
      | succ m =>
        simp only [List.length_cons] at hn hm
        have hdrop := length_dropWhileP (fun x => !(isPyWs x)) t
        simp only [pyTokensF]
        by_cases h : isPyWs c
        · simp only [h, if_pos]
          rw [ih m t (by omega) (by omega)]
        · simp only [h, if_neg, Bool.false_eq_true, not_false_iff]
          rw [ih m (t.dropWhile (fun x => !(isPyWs x))) (by omega) (by omega)]

end FuelLemmas

section RewriteRules

theorem nePieces_nil : nePieces [] = [] := rfl

theorem nePieces_nl (t : List Char) : nePieces ('\n' :: t) = nePieces t := rfl

theorem nePieces_cons {c : Char} (t : List Char) (hc : (c == '\n') = false) :
    nePieces (c :: t) =
      (if (rstripWs (c :: t.takeWhile (· != '\n'))).isEmpty then
        nePieces (t.dropWhile (· != '\n'))
      else rstripWs (c :: t.takeWhile (· != '\n')) :: nePieces (t.dropWhile (· != '\n'))) := by
  have hdrop := length_dropWhileP (· != '\n') t
  show nePiecesF (t.length + 1) (c :: t) = _
  simp only [nePiecesF, hc, if_neg, Bool.false_eq_true, not_false_iff]
  rw [nePiecesF_fuel t.length (t.dropWhile (· != '\n')).length _ (by omega) (by omega)]
  rfl

theorem findHeading_of_tryHead {s : List Char} {g : List Char}
    (h : tryHead s = some g) : findHeading s = some g := by
  cases s with
  | nil => simp [tryHead] at h
  | cons a t =>
    show findHeadingF (t.length + 1) (a :: t) = some g
    simp only [findHeadingF, h]

theorem findHeading_stop {s : List Char} (h1 : tryHead s = none)
    (h2 : s.dropWhile (· != '\n') = []) : findHeading s = none := by
  cases s with
  | nil => rfl
  | cons a t =>
    show findHeadingF (t.length + 1) (a :: t) = none
    simp only [findHeadingF, h1, h2]

theorem findHeading_step {s : List Char} {d : Char} {r : List Char}
    (h1 : tryHead s = none) (h2 : s.dropWhile (· != '\n') = d :: r) :
    findHeading s = findHeading r := by
  cases s with
  | nil => simp at h2
  | cons a t =>
    show findHeadingF (t.length + 1) (a :: t) = findHeading r
    simp only [findHeadingF, h1, h2]
    have := length_dropWhileP (· != '\n') (a :: t)
    rw [h2] at this
    simp only [List.length_cons] at this
    exact findHeadingF_fuel t.length r.length r (by omega) (by omega)

theorem pyTokens_nil : pyTokens [] = [] := rfl

theorem pyTokens_ws {c : Char} (t : List Char) (hc : isPyWs c = true) :
    pyTokens (c :: t) = pyTokens t := by
  show pyTokensF (t.length + 1) (c :: t) = pyTokens t
  simp only [pyTokensF, hc, if_pos]
  rfl

theorem pyTokens_cons {c : Char} (t : List Char) (hc : isPyWs c = false) :
    pyTokens (c :: t) =
      (c :: t.takeWhile (fun x => !(isPyWs x))) ::
        pyTokens (t.dropWhile (fun x => !(isPyWs x))) := by
  have hdrop := length_dropWhileP (fun x => !(isPyWs x)) t
  show pyTokensF (t.length + 1) (c :: t) = _
  simp only [pyTokensF, hc, if_neg, Bool.false_eq_true, not_false_iff]
  rw [pyTokensF_fuel t.length (t.dropWhile (fun x => !(isPyWs x))).length _ (by omega) (by omega)]
  rfl

theorem nlCollapse_nil : nlCollapse [] = [] := rfl

theorem nlCollapse_nl (t : List Char) :
    nlCollapse ('\n' :: t) =
      (if 3 ≤ (t.takeWhile (· == '\n')).length then ['\n', '\n', '\n']
       else '\n' :: t.takeWhile (· == '\n')) ++ nlCollapse (t.dropWhile (· == '\n')) := by
  have hdrop := length_dropWhileP (· == '\n') t
  show nlCollapseF (t.length + 1) ('\n' :: t) = _
  simp only [nlCollapseF]
  norm_num
  rw [nlCollapseF_fuel t.length (t.dropWhile (· == '\n')).length _ (by omega) (by omega)]
  rfl

theorem nlCollapse_cons {c : Char} (t : List Char) (hc : (c == '\n') = false) :
    nlCollapse (c :: t) = c :: nlCollapse t := by
  show nlCollapseF (t.length + 1) (c :: t) = _
  simp only [nlCollapseF, hc, if_neg, Bool.false_eq_true, not_false_iff]
  rfl

theorem stripLines_noNl {s : List Char} (h : s.dropWhile (· != '\n') = []) :
    stripLines s = rstripHT s := by
  cases s with
  | nil => rfl
  | cons a t =>
    show stripLinesF (t.length + 1) (a :: t) = _
    simp only [stripLinesF, h]
    have : (a :: t).takeWhile (· != '\n') = a :: t := by
      rw [List.takeWhile_eq_self_iff.mpr]
      intro x hx
      have : ∀ y ∈ (a :: t), (y != '\n') = true := List.dropWhile_eq_nil_iff.mp h
      exact this x hx
    rw [this]

theorem stripLines_step {s : List Char} {d : Char} {r : List Char}
    (h : s.dropWhile (· != '\n') = d :: r) :
    stripLines s = rstripHT (s.takeWhile (· != '\n')) ++ '\n' :: stripLines r := by
  cases s with
  | nil => simp at h
  | cons a t =>
    show stripLinesF (t.length + 1) (a :: t) = _
    simp only [stripLinesF, h]
    have := length_dropWhileP (· != '\n') (a :: t)
    rw [h] at this
    simp only [List.length_cons] at this
    rw [stripLinesF_fuel t.length r.length r (by omega) (by omega)]
    rfl

end RewriteRules

section WsFacts

theorem ws_nl : isPyWs '\n' = true := by decide

theorem not_ws_hash : isPyWs '#' = false := by decide

theorem ws_ne_hash {c : Char} (h : isPyWs c = true) : (c == '#') = false := by
  by_cases hc : c = '#'
  · subst hc; simp [not_ws_hash] at h
  · simpa using hc

theorem isHT_ws {c : Char} (h : isHT c = true) : isPyWs c = true := by
  have : c = ' ' ∨ c = '\t' := by
    unfold isHT at h
    rcases Bool.or_eq_true_iff.mp h with h1 | h1
    · exact Or.inl (by simpa using h1)
    · exact Or.inr (by simpa using h1)
  rcases this with rfl | rfl <;> decide

theorem rstripP_all_not {p : Char → Bool} {s : List Char}
    (h : ∀ c ∈ s, p c = false) : rstripP p s = s := by
  obtain ⟨w, hw, hwp⟩ := rstripP_decomp p s
  cases w with
  | nil => simpa using hw.symm
  | cons d x =>
    have hd : p d = true := hwp d (by simp)
    have : d ∈ s := by rw [hw]; simp
    rw [h d this] at hd
    cases hd

theorem pyStrip_append_ws {s w : List Char} (h : ∀ c ∈ w, isPyWs c = true) :
    pyStrip (s ++ w) = pyStrip s := by
  unfold pyStrip
  by_cases hs : s.dropWhile isPyWs = []
  · rw [dropWhile_append_all (List.dropWhile_eq_nil_iff.mp hs), hs]
    rw [List.dropWhile_eq_nil_iff.mpr h]
  · rw [dropWhile_append_stop hs]
    exact rstripP_append_all h

theorem pyStrip_rstripWs (s : List Char) : pyStrip (rstripWs s) = pyStrip s := by
  obtain ⟨w, hw, hwp⟩ := rstripP_decomp isPyWs s
  conv_rhs => rw [hw]
  exact (pyStrip_append_ws hwp).symm

theorem pyStrip_dropWs (s : List Char) : pyStrip (s.dropWhile isPyWs) = pyStrip s := by
  unfold pyStrip
  congr 1
  induction s with
  | nil => simp
  | cons c t ih =>
    by_cases hc : isPyWs c
    · simp [List.dropWhile_cons, hc, ih]
    · simp [List.dropWhile_cons, hc]

theorem titleOf_rstripWs (g : List Char) : titleOf (rstripWs g) = titleOf g := by
  unfold titleOf
  rw [pyStrip_rstripWs]

theorem titleOf_dropWs (g : List Char) : titleOf (g.dropWhile isPyWs) = titleOf g := by
  unfold titleOf
  rw [pyStrip_dropWs]

theorem pyStrip_all_ws {s : List Char} (h : ∀ c ∈ s, isPyWs c = true) :
    pyStrip s = [] := by
  unfold pyStrip
  rw [List.dropWhile_eq_nil_iff.mpr h]
  rfl

theorem titleOf_all_ws {g : List Char} (h : ∀ c ∈ g, isPyWs c = true) :
    titleOf g = [] := by
  unfold titleOf
  rw [pyStrip_all_ws h]
  rfl

theorem mem_of_mem_dropWhile {p : Char → Bool} {s : List Char} {c : Char}
    (h : c ∈ s.dropWhile p) : c ∈ s :=
  (List.dropWhile_suffix p).subset h

theorem mem_of_mem_takeWhile {p : Char → Bool} {s : List Char} {c : Char}
    (h : c ∈ s.takeWhile p) : c ∈ s :=
  ((List.takeWhile_prefix p).subset h)

theorem prefix_head_eq {s t : List Char} {d : Char} {x : List Char}
    (hpre : s <+: t) (hs : s = d :: x) : ∃ y, t = d :: y := by
  obtain ⟨w, hw⟩ := hpre
  subst hs
  exact ⟨x ++ w, by simp [← hw]⟩

end WsFacts

section AllWs

theorem tryHead_nil : tryHead [] = none := rfl

theorem tryHead_no_hash {c : Char} {t : List Char} (h : (c == '#') = false) :
    tryHead (c :: t) = none := by
  simp only [tryHead]
  simp only [List.takeWhile_cons, h, if_neg, Bool.false_eq_true, not_false_iff]
  norm_num

theorem allWs_findHeading : ∀ n s, s.length ≤ n → (∀ c ∈ s, isPyWs c = true) →
    findHeading s = none := by
  intro n
  induction n with
  | zero =>
    intro s hn _
    have : s = [] := List.length_eq_zero.mp (Nat.le_zero.mp hn)
    subst this; rfl
  | succ n ih =>
    intro s hn hws
    cases s with
    | nil => rfl
    | cons c t =>
      have hth : tryHead (c :: t) = none :=
        tryHead_no_hash (ws_ne_hash (hws c (by simp)))
      cases hr : (c :: t).dropWhile (· != '\n') with
      | nil => exact findHeading_stop hth hr
      | cons d r =>
        rw [findHeading_step hth hr]
        have hsuf : d :: r <:+ c :: t := by rw [← hr]; exact List.dropWhile_suffix _
        have hlen := length_dropWhileP (· != '\n') (c :: t)
        rw [hr] at hlen
        simp only [List.length_cons] at hlen hn
        refine ih r (by omega) ?_
        intro x hx
        exact hws x (hsuf.subset (by simp [hx]))

theorem allWs_nePieces : ∀ n s, s.length ≤ n → (∀ c ∈ s, isPyWs c = true) →
    nePieces s = [] := by
  intro n
  induction n with
  | zero =>
    intro s hn _
    have : s = [] := List.length_eq_zero.mp (Nat.le_zero.mp hn)
    subst this; rfl
  | succ n ih =>
    intro s hn hws
    cases s with
    | nil => rfl
    | cons c t =>
      simp only [List.length_cons] at hn
      by_cases hc : c = '\n'
      · subst hc
        rw [nePieces_nl]
        exact ih t (by omega) (fun x hx => hws x (by simp [hx]))
      · have hcb : (c == '\n') = false := by simpa using hc
        rw [nePieces_cons t hcb]
        have hcore : rstripWs (c :: t.takeWhile (· != '\n')) = [] := by
          apply rstripP_eq_nil_iff.mpr
          intro x hx
          rcases List.mem_cons.mp hx with rfl | hx2
          · exact hws x (by simp)
          · exact hws x (by simp [mem_of_mem_takeWhile hx2])
        rw [hcore]
        simp only [List.isEmpty_nil, if_pos]
        have hlen := length_dropWhileP (· != '\n') t
        refine ih _ (by omega) ?_
        intro x hx
        exact hws x (by simp [mem_of_mem_dropWhile hx])

theorem wsBacktrack_all_ws {m g : List Char} (hm : ∀ c ∈ m, isPyWs c = true)
    (h : wsBacktrack m = some g) : titleOf g = [] := by
  unfold wsBacktrack at h
  cases m with
  | nil => simp at h
  | cons a m1 =>
    dsimp only at h
    cases hr : m1.reverse.dropWhile (· == '\n') with
    | nil => rw [hr] at h; simp at h
    | cons c x =>
      rw [hr] at h
      simp only [Option.some.injEq] at h
      subst h
      apply titleOf_all_ws
      intro y hy
      simp only [List.mem_singleton] at hy
      subst hy
      have hmem : y ∈ m1.reverse.dropWhile (· == '\n') := by rw [hr]; simp
      have : y ∈ m1.reverse := mem_of_mem_dropWhile hmem
      exact hm y (List.mem_cons_of_mem a (List.mem_reverse.mp this))

end AllWs


section HeadingEquivalence

theorem mem_takeWhile_pred (p : Char → Bool) {s : List Char} {c : Char}
    (h : c ∈ s.takeWhile p) : p c = true :=
  List.mem_takeWhile_imp h

theorem takeWhile_noNl_append {a rest : List Char}
    (ha : ∀ x ∈ a, (x != '\n') = true)
    (hrest : rest = [] ∨ ∃ r', rest = '\n' :: r') :
    (a ++ rest).takeWhile (· != '\n') = a := by
  rcases hrest with rfl | ⟨r', rfl⟩
  · rw [List.append_nil, List.takeWhile_eq_self_iff.mpr ha]
  · rw [takeWhile_append_all ha]
    simp [List.takeWhile_cons]

theorem bigTitle_congr {s s' : List Char} (h : findHeading s = findHeading s') :
    bigTitle s = bigTitle s' := by
  unfold bigTitle
  rw [h]

theorem isEmpty_false_of_ne {l : List Char} (h : l ≠ []) : l.isEmpty = false := by
  cases l with
  | nil => exact absurd rfl h
  | cons a b => rfl

/-- Decomposition of a text whose first character is not a newline into its
first line and the remainder. -/
theorem line_decomp (c : Char) (t : List Char) (hc : (c == '\n') = false) :
    c :: t = (c :: t.takeWhile (· != '\n')) ++ t.dropWhile (· != '\n') ∧
      (∀ x ∈ c :: t.takeWhile (· != '\n'), (x != '\n') = true) ∧
      (t.dropWhile (· != '\n') = [] ∨
        ∃ r2, t.dropWhile (· != '\n') = '\n' :: r2) := by
  refine ⟨?_, ?_, ?_⟩
  · simp only [List.cons_append]
    congr 1
    exact (List.takeWhile_append_dropWhile _ _).symm
  · intro x hx
    rcases List.mem_cons.mp hx with rfl | hx2
    · simpa using hc
    · have h2 := mem_takeWhile_pred _ hx2
      exact h2
  · cases hr : t.dropWhile (· != '\n') with
    | nil => exact Or.inl rfl
    | cons d r2 =>
      have hd := dropWhile_head_not hr
      have : d = '\n' := by simpa using hd
      subst this
      exact Or.inr ⟨r2, rfl⟩

/-- Hash split of a line's core (`rstripWs line`): taking the core first
does not change the maximal `#` prefix, and the remainder of the core is
the core of the remainder. -/
theorem core_split (line : List Char) :
    (rstripWs line).takeWhile (· == '#') = line.takeWhile (· == '#') ∧
      (rstripWs line).dropWhile (· == '#') = rstripWs (line.dropWhile (· == '#')) := by
  have hdecomp : line = line.takeWhile (· == '#') ++ line.dropWhile (· == '#') :=
    (List.takeWhile_append_dropWhile _ _).symm
  have hksall : ∀ x ∈ line.takeWhile (· == '#'), (x == '#') = true := by
    intro x hx
    have h2 := mem_takeWhile_pred _ hx
    exact h2
  have hksnws : ∀ x ∈ line.takeWhile (· == '#'), isPyWs x = false := by
    intro x hx
    have hxh : x = '#' := by simpa using hksall x hx
    rw [hxh]; exact not_ws_hash
  by_cases hrl : rstripWs (line.dropWhile (· == '#')) = []
  · have hlrws : ∀ x ∈ line.dropWhile (· == '#'), isPyWs x = true :=
      rstripP_eq_nil_iff.mp hrl
    have hcore : rstripWs line = line.takeWhile (· == '#') := by
      conv_lhs => rw [hdecomp]
      unfold rstripWs
      rw [rstripP_append_all hlrws]
      exact rstripP_all_not hksnws
    rw [hcore, hrl]
    exact ⟨List.takeWhile_eq_self_iff.mpr hksall, List.dropWhile_eq_nil_iff.mpr hksall⟩
  · have hcore : rstripWs line =
        line.takeWhile (· == '#') ++ rstripWs (line.dropWhile (· == '#')) := by
      conv_lhs => rw [hdecomp]
      exact rstripP_append_ne hrl
    obtain ⟨d, lx, hlr2⟩ : ∃ d lx, line.dropWhile (· == '#') = d :: lx := by
      cases h2 : line.dropWhile (· == '#') with
      | nil => rw [h2] at hrl; exact absurd rfl hrl
      | cons a b => exact ⟨a, b, rfl⟩
    have hd' := dropWhile_head_not hlr2
    have hd : (d == '#') = false := hd'
    obtain ⟨y, hy⟩ : ∃ y, rstripWs (line.dropWhile (· == '#')) = d :: y := by
      cases hrw : rstripWs (line.dropWhile (· == '#')) with
      | nil => exact absurd hrw hrl
      | cons d2 y2 =>
        have hpre : rstripWs (line.dropWhile (· == '#')) <+: line.dropWhile (· == '#') :=
          rstripP_pref _ _
        rw [hrw, hlr2] at hpre
        obtain ⟨w, hw⟩ := hpre
        rw [List.cons_append] at hw
        injection hw with h1 _
        exact ⟨y2, by rw [h1]⟩
    constructor
    · rw [hcore, takeWhile_append_all hksall, hy, List.takeWhile_cons, hd]
      simp [List.takeWhile_eq_self_iff.mpr hksall]
    · rw [hcore, dropWhile_append_all hksall, hy, List.dropWhile_cons, hd]
      simp [← hy]

/-- When the whitespace run started by a hash-only heading line crosses into
following text `r'` containing a non-whitespace character, the regex group
is the remainder of the first non-blank line of `r'` from its first
non-whitespace character; `r'`'s first non-blank core carries the same
cleaned title. -/
theorem cross_lemma : ∀ n r', r'.length ≤ n →
    ∀ e rr, r'.dropWhile isPyWs = e :: rr →
    ∃ f fs2, nePieces r' = f :: fs2 ∧
      titleOf ((e :: rr).takeWhile (· != '\n')) = titleOf f := by
  intro n
  induction n with
  | zero =>
    intro r' hn e rr hdw
    have : r' = [] := List.length_eq_zero.mp (Nat.le_zero.mp hn)
    subst this; simp at hdw
  | succ n ih =>
    intro r' hn e rr hdw
    cases r' with
    | nil => simp at hdw
    | cons c t =>
      simp only [List.length_cons] at hn
      by_cases hc : c = '\n'
      · subst hc
        rw [List.dropWhile_cons, if_pos (by simp [ws_nl])] at hdw
        obtain ⟨f, fs2, h1, h2⟩ := ih t (by omega) e rr hdw
        exact ⟨f, fs2, by rw [nePieces_nl]; exact h1, h2⟩
      · have hcb : (c == '\n') = false := by simpa using hc
        obtain ⟨hsdecomp, hnoNl, hshape⟩ := line_decomp c t hcb
        by_cases hcore : rstripWs (c :: t.takeWhile (· != '\n')) = []
        · -- blank first line: the whitespace run continues past it
          have hlinews : ∀ x ∈ c :: t.takeWhile (· != '\n'), isPyWs x = true :=
            rstripP_eq_nil_iff.mp hcore
          rcases hshape with hre | ⟨r2, hre⟩
          · rw [hsdecomp, dropWhile_append_all hlinews, hre] at hdw
            simp at hdw
          · rw [hsdecomp, dropWhile_append_all hlinews, hre, List.dropWhile_cons,
              if_pos (by simp [ws_nl])] at hdw
            have hlen := length_dropWhileP (· != '\n') t
            rw [hre] at hlen
            simp only [List.length_cons] at hlen
            obtain ⟨f, fs2, h1, h2⟩ := ih r2 (by omega) e rr hdw
            refine ⟨f, fs2, ?_, h2⟩
            rw [nePieces_cons t hcb, hcore]
            simp only [List.isEmpty_nil, if_pos]
            rw [hre, nePieces_nl]
            exact h1
        · -- first line holds a non-whitespace character: it is the group line
          have hdwline : (c :: t.takeWhile (· != '\n')).dropWhile isPyWs ≠ [] := by
            intro hnil
            exact hcore (rstripP_eq_nil_iff.mpr (List.dropWhile_eq_nil_iff.mp hnil))
          have hdw2 : (c :: t).dropWhile isPyWs =
              (c :: t.takeWhile (· != '\n')).dropWhile isPyWs ++ t.dropWhile (· != '\n') := by
            conv_lhs => rw [hsdecomp]
            exact dropWhile_append_stop hdwline
          have hgroup : (e :: rr).takeWhile (· != '\n') =
              (c :: t.takeWhile (· != '\n')).dropWhile isPyWs := by
            rw [← hdw, hdw2]
            exact takeWhile_noNl_append
              (fun x hx => hnoNl x (mem_of_mem_dropWhile hx)) hshape
          refine ⟨rstripWs (c :: t.takeWhile (· != '\n')), nePieces (t.dropWhile (· != '\n')),
            ?_, ?_⟩
          · rw [nePieces_cons t hcb, isEmpty_false_of_ne hcore]
            simp
          · rw [hgroup, titleOf_dropWs, titleOf_rstripWs]

theorem bigTitle_none_of_fh {s : List Char} (h : findHeading s = none) :
    bigTitle s = none := by
  unfold bigTitle
  rw [h]

theorem bigTitle_some_of_fh {s g : List Char} (h : findHeading s = some g) :
    bigTitle s = if 10 < (titleOf g).length then some (titleOf g) else none := by
  unfold bigTitle
  rw [h]

theorem rstrip_head {p : Char → Bool} {s : List Char} {d : Char} {x : List Char}
    (hne : rstripP p s ≠ []) (hs : s = d :: x) : ∃ y, rstripP p s = d :: y := by
  cases hrw : rstripP p s with
  | nil => exact absurd hrw hne
  | cons d2 y2 =>
    have hpre : rstripP p s <+: s := rstripP_pref _ _
    rw [hrw, hs] at hpre
    obtain ⟨w, hw⟩ := hpre
    rw [List.cons_append] at hw
    injection hw with h1 _
    exact ⟨y2, by rw [h1]⟩

theorem Bne_skip_bad {core : List Char} (X : List (List Char))
    (h : ((core.takeWhile (· == '#')).length < 1 ||
      3 < (core.takeWhile (· == '#')).length) = true) :
    Bne (core :: X) = Bne X := by
  simp only [Bne, h, if_pos]

theorem Bne_skip_noWs {core : List Char} (X : List (List Char)) {d : Char} {y : List Char}
    (hcond : ((core.takeWhile (· == '#')).length < 1 ||
      3 < (core.takeWhile (· == '#')).length) = false)
    (h3 : core.dropWhile (· == '#') = d :: y) (h4 : isPyWs d = false) :
    Bne (core :: X) = Bne X := by
  simp only [Bne, hcond, h3, h4]
  rfl

theorem Bne_cross {core : List Char} (X : List (List Char))
    (hcond : ((core.takeWhile (· == '#')).length < 1 ||
      3 < (core.takeWhile (· == '#')).length) = false)
    (h3 : core.dropWhile (· == '#') = []) :
    Bne (core :: X) = match X with
      | [] => none
      | f :: _ => if 10 < (titleOf f).length then some (titleOf f) else none := by
  simp only [Bne, hcond, h3]
  rfl

theorem Bne_direct {core : List Char} (X : List (List Char)) {d : Char} {y : List Char}
    (hcond : ((core.takeWhile (· == '#')).length < 1 ||
      3 < (core.takeWhile (· == '#')).length) = false)
    (h3 : core.dropWhile (· == '#') = d :: y) (h4 : isPyWs d = true) :
    Bne (core :: X) =
      if 10 < (titleOf (core.dropWhile (· == '#'))).length
      then some (titleOf (core.dropWhile (· == '#'))) else none := by
  simp only [Bne, hcond, h3, h4]
  rfl

/-- The heading search of `extract_title` over the raw character string
computes the same result as the line-based search over the non-blank line
cores.  This is the key stability invariant: `clean_markdown` preserves
the non-blank line cores, hence also the extracted title. -/
theorem bigTitle_eq_Bne_aux : ∀ n s, s.length ≤ n → bigTitle s = Bne (nePieces s) := by
  intro n
  induction n with
  | zero =>
    intro s hn
    have : s = [] := List.length_eq_zero.mp (Nat.le_zero.mp hn)
    subst this; rfl
  | succ n ih =>
    intro s hn
    cases s with
    | nil => rfl
    | cons c t =>
      simp only [List.length_cons] at hn
      by_cases hc : c = '\n'
      · subst hc
        have hth : tryHead ('\n' :: t) = none := tryHead_no_hash (by decide)
        have hdwnl : ('\n' :: t).dropWhile (· != '\n') = '\n' :: t := by
          rw [List.dropWhile_cons]
          simp
        rw [bigTitle_congr (findHeading_step hth hdwnl), nePieces_nl]
        exact ih t (by omega)
      · have hcb : (c == '\n') = false := by simpa using hc
        obtain ⟨hsdecomp, hnoNl, hshape⟩ := line_decomp c t hcb
        have hrest_len : (t.dropWhile (· != '\n')).length ≤ t.length :=
          length_dropWhileP _ t
        -- hash split of the first line
        have hlr_sub : ∀ x ∈ (c :: t.takeWhile (· != '\n')).dropWhile (· == '#'),
            x ∈ c :: t.takeWhile (· != '\n') := fun x hx => mem_of_mem_dropWhile hx
        have h_tkS : (c :: t).takeWhile (· == '#') =
            (c :: t.takeWhile (· != '\n')).takeWhile (· == '#') := by
          conv_lhs => rw [hsdecomp]
          by_cases hlrnil : (c :: t.takeWhile (· != '\n')).dropWhile (· == '#') = []
          · have hall := List.dropWhile_eq_nil_iff.mp hlrnil
            rw [takeWhile_append_all hall, List.takeWhile_eq_self_iff.mpr hall]
            rcases hshape with hre | ⟨r2, hre⟩
            · rw [hre]; simp
            · rw [hre, List.takeWhile_cons]
              simp
          · rw [takeWhile_append_stop hlrnil]
        have h_dwS : (c :: t).dropWhile (· == '#') =
            (c :: t.takeWhile (· != '\n')).dropWhile (· == '#') ++
              t.dropWhile (· != '\n') := by
          conv_lhs => rw [hsdecomp]
          by_cases hlrnil : (c :: t.takeWhile (· != '\n')).dropWhile (· == '#') = []
          · have hall := List.dropWhile_eq_nil_iff.mp hlrnil
            rw [dropWhile_append_all hall, hlrnil, List.nil_append]
            rcases hshape with hre | ⟨r2, hre⟩
            · rw [hre]
              rfl
            · rw [hre, List.dropWhile_cons]
              simp
          · rw [dropWhile_append_stop hlrnil]
        have hdw_line : (c :: t).dropWhile (· != '\n') = t.dropWhile (· != '\n') := by
          rw [List.dropWhile_cons, if_pos (by simpa using hc)]
        by_cases hk1 : 1 ≤ ((c :: t.takeWhile (· != '\n')).takeWhile (· == '#')).length ∧
            ((c :: t.takeWhile (· != '\n')).takeWhile (· == '#')).length ≤ 3
        · -- plausible heading line: 1-3 leading hashes
          have hcond : ((((c :: t.takeWhile (· != '\n')).takeWhile (· == '#')).length < 1 : Bool) ||
              (3 < ((c :: t.takeWhile (· != '\n')).takeWhile (· == '#')).length : Bool)) = false := by
            simp only [Bool.or_eq_false_iff, decide_eq_false_iff_not]
            omega
          have hksne : (c :: t.takeWhile (· != '\n')).takeWhile (· == '#') ≠ [] := by
            intro hknil
            rw [hknil] at hk1
            simp at hk1
          have hcore_ne : rstripWs (c :: t.takeWhile (· != '\n')) ≠ [] := by
            intro hnil
            obtain ⟨k0, ks', hkscons⟩ :
                ∃ k0 ks', (c :: t.takeWhile (· != '\n')).takeWhile (· == '#') = k0 :: ks' := by
              cases hkk : (c :: t.takeWhile (· != '\n')).takeWhile (· == '#') with
              | nil => exact absurd hkk hksne
              | cons a b => exact ⟨a, b, rfl⟩
            have hk0 := mem_takeWhile_pred (fun x => x == '#') (by rw [hkscons]; simp :
              k0 ∈ (c :: t.takeWhile (· != '\n')).takeWhile (· == '#'))
            have hk0' : k0 = '#' := by simpa using hk0
            have hmem : k0 ∈ c :: t.takeWhile (· != '\n') :=
              mem_of_mem_takeWhile (by rw [hkscons]; simp)
            have := rstripP_eq_nil_iff.mp hnil k0 hmem
            rw [hk0'] at this
            rw [not_ws_hash] at this
            cases this
          by_cases hlrws : ((c :: t.takeWhile (· != '\n')).dropWhile (· == '#')).dropWhile isPyWs = []
          · -- crossing: the line after its hashes is all whitespace
            have hlrall : ∀ x ∈ (c :: t.takeWhile (· != '\n')).dropWhile (· == '#'),
                isPyWs x = true := List.dropWhile_eq_nil_iff.mp hlrws
            have hcore_eq : rstripWs (c :: t.takeWhile (· != '\n')) =
                (c :: t.takeWhile (· != '\n')).takeWhile (· == '#') := by
              conv_lhs => rw [show (c :: t.takeWhile (· != '\n')) =
                (c :: t.takeWhile (· != '\n')).takeWhile (· == '#') ++
                  (c :: t.takeWhile (· != '\n')).dropWhile (· == '#') from
                (List.takeWhile_append_dropWhile _ _).symm]
              unfold rstripWs
              rw [rstripP_append_all hlrall]
              apply rstripP_all_not
              intro x hx
              have hxh : x = '#' := by simpa using mem_takeWhile_pred (fun y => y == '#') hx
              rw [hxh]; exact not_ws_hash
            have hks_all : ∀ x ∈ (c :: t.takeWhile (· != '\n')).takeWhile (· == '#'),
                (x == '#') = true := by
              intro x hx
              have h2 := mem_takeWhile_pred _ hx
              exact h2
            have hks_tk : ((c :: t.takeWhile (· != '\n')).takeWhile (· == '#')).takeWhile (· == '#') =
                (c :: t.takeWhile (· != '\n')).takeWhile (· == '#') :=
              List.takeWhile_eq_self_iff.mpr hks_all
            have hks_dw : ((c :: t.takeWhile (· != '\n')).takeWhile (· == '#')).dropWhile (· == '#') = [] :=
              List.dropWhile_eq_nil_iff.mpr hks_all
            have hBneKS : ∀ X, Bne ((c :: t.takeWhile (· != '\n')).takeWhile (· == '#') :: X) =
                match X with
                | [] => none
                | f :: _ => if 10 < (titleOf f).length then some (titleOf f) else none := by
              intro X
              refine Bne_cross X ?_ hks_dw
              rw [hks_tk]
              exact hcond
            rcases hshape with hre | ⟨r2, hre⟩
            · -- no newline after the heading line: end of string
              have hM : ((c :: t).dropWhile (· == '#')).takeWhile isPyWs =
                  (c :: t.takeWhile (· != '\n')).dropWhile (· == '#') := by
                rw [h_dwS, hre, List.append_nil, List.takeWhile_eq_self_iff.mpr hlrall]
              have hPOST : ((c :: t).dropWhile (· == '#')).dropWhile isPyWs = [] := by
                rw [h_dwS, hre, List.append_nil, hlrws]
              have hBneSide : Bne (nePieces (c :: t)) = none := by
                rw [nePieces_cons t hcb, hcore_eq, isEmpty_false_of_ne (hcore_eq ▸ hcore_ne)]
                simp only [Bool.false_eq_true, if_false]
                rw [hre, nePieces_nil, hBneKS]
              rw [hBneSide]
              have hfh_stop : (c :: t).dropWhile (· != '\n') = [] := by rw [hdw_line, hre]
              by_cases hlrnil : (c :: t.takeWhile (· != '\n')).dropWhile (· == '#') = []
              · have hth : tryHead (c :: t) = none := by
                  simp only [tryHead]
                  rw [h_tkS, hcond, h_dwS, hre, List.append_nil, hlrnil]
                  simp
                exact bigTitle_none_of_fh (findHeading_stop hth hfh_stop)
              · cases hwb : wsBacktrack ((c :: t.takeWhile (· != '\n')).dropWhile (· == '#')) with
                | none =>
                  have hth : tryHead (c :: t) = none := by
                    simp only [tryHead]
                    rw [h_tkS, hcond, h_dwS, hre, List.append_nil,
                      List.takeWhile_eq_self_iff.mpr hlrall, hlrws]
                    simp only [Bool.false_eq_true, if_false, isEmpty_false_of_ne hlrnil]
                    exact hwb
                  exact bigTitle_none_of_fh (findHeading_stop hth hfh_stop)
                | some g =>
                  have hth : tryHead (c :: t) = some g := by
                    simp only [tryHead]
                    rw [h_tkS, hcond, h_dwS, hre, List.append_nil,
                      List.takeWhile_eq_self_iff.mpr hlrall, hlrws]
                    simp only [Bool.false_eq_true, if_false, isEmpty_false_of_ne hlrnil]
                    exact hwb
                  rw [bigTitle_some_of_fh (findHeading_of_tryHead hth)]
                  rw [wsBacktrack_all_ws hlrall hwb]
                  simp
            · -- a newline follows the heading line
              have htkre : (t.dropWhile (· != '\n')).takeWhile isPyWs =
                  '\n' :: r2.takeWhile isPyWs := by
                rw [hre, List.takeWhile_cons, if_pos (by simp [ws_nl])]
              have hdwre : (t.dropWhile (· != '\n')).dropWhile isPyWs =
                  r2.dropWhile isPyWs := by
                rw [hre, List.dropWhile_cons, if_pos (by simp [ws_nl])]
              have hM : ((c :: t).dropWhile (· == '#')).takeWhile isPyWs =
                  (c :: t.takeWhile (· != '\n')).dropWhile (· == '#') ++
                    '\n' :: r2.takeWhile isPyWs := by
                rw [h_dwS, takeWhile_append_all hlrall, htkre]
              have hPOST : ((c :: t).dropWhile (· == '#')).dropWhile isPyWs =
                  r2.dropWhile isPyWs := by
                rw [h_dwS, dropWhile_append_all hlrall, hdwre]
              have hMne : (c :: t.takeWhile (· != '\n')).dropWhile (· == '#') ++
                  '\n' :: r2.takeWhile isPyWs ≠ [] := by simp
              have hMall : ∀ x ∈ (c :: t.takeWhile (· != '\n')).dropWhile (· == '#') ++
                  '\n' :: r2.takeWhile isPyWs, isPyWs x = true := by
                intro x hx
                rcases List.mem_append.mp hx with hx1 | hx2
                · exact hlrall x hx1
                · rcases List.mem_cons.mp hx2 with rfl | hx3
                  · exact ws_nl
                  · exact mem_takeWhile_pred _ hx3
              have hr2len : r2.length + 1 ≤ t.length := by
                have := hrest_len
                rw [hre] at this
                simpa using this
              cases hpost2 : r2.dropWhile isPyWs with
              | nil =>
                -- everything after is whitespace
                have hr2all : ∀ x ∈ r2, isPyWs x = true := List.dropWhile_eq_nil_iff.mp hpost2
                have hBneSide : Bne (nePieces (c :: t)) = none := by
                  rw [nePieces_cons t hcb, hcore_eq, isEmpty_false_of_ne (hcore_eq ▸ hcore_ne)]
                  simp only [Bool.false_eq_true, if_false]
                  rw [hre, nePieces_nl, allWs_nePieces r2.length r2 (by omega) hr2all, hBneKS]
                rw [hBneSide]
                cases hwb : wsBacktrack ((c :: t.takeWhile (· != '\n')).dropWhile (· == '#') ++
                    '\n' :: r2.takeWhile isPyWs) with
                | none =>
                  have hth : tryHead (c :: t) = none := by
                    simp only [tryHead]
                    rw [h_tkS, hcond, hM, hPOST, hpost2]
                    simp only [Bool.false_eq_true, if_false, isEmpty_false_of_ne hMne]
                    exact hwb
                  have hstep : (c :: t).dropWhile (· != '\n') = '\n' :: r2 := by
                    rw [hdw_line, hre]
                  rw [bigTitle_congr (findHeading_step hth hstep)]
                  exact bigTitle_none_of_fh (allWs_findHeading r2.length r2 (by omega) hr2all)
                | some g =>
                  have hth : tryHead (c :: t) = some g := by
                    simp only [tryHead]
                    rw [h_tkS, hcond, hM, hPOST, hpost2]
                    simp only [Bool.false_eq_true, if_false, isEmpty_false_of_ne hMne]
                    exact hwb
                  rw [bigTitle_some_of_fh (findHeading_of_tryHead hth)]
                  rw [wsBacktrack_all_ws hMall hwb]
                  simp
              | cons e rr =>
                -- the group comes from the first non-blank line after
                have hth : tryHead (c :: t) = some ((e :: rr).takeWhile (· != '\n')) := by
                  simp only [tryHead]
                  rw [h_tkS, hcond, hM, hPOST, hpost2]
                  simp only [Bool.false_eq_true, if_false, isEmpty_false_of_ne hMne]
                obtain ⟨f, fs2, hnp, htf⟩ := cross_lemma n r2 (by omega) e rr hpost2
                have hBneSide : Bne (nePieces (c :: t)) =
                    if 10 < (titleOf f).length then some (titleOf f) else none := by
                  rw [nePieces_cons t hcb, hcore_eq, isEmpty_false_of_ne (hcore_eq ▸ hcore_ne)]
                  simp only [Bool.false_eq_true, if_false]
                  rw [hre, nePieces_nl, hnp, hBneKS]
                rw [hBneSide, bigTitle_some_of_fh (findHeading_of_tryHead hth), htf]
          · -- the line remainder contains a non-whitespace character
            obtain ⟨d, lx, hlr2⟩ :
                ∃ d lx, (c :: t.takeWhile (· != '\n')).dropWhile (· == '#') = d :: lx := by
              cases h2 : (c :: t.takeWhile (· != '\n')).dropWhile (· == '#') with
              | nil =>
                rw [h2] at hlrws
                simp at hlrws
              | cons a b => exact ⟨a, b, rfl⟩
            have hrwlr_ne : rstripWs ((c :: t.takeWhile (· != '\n')).dropWhile (· == '#')) ≠ [] := by
              intro hnil
              exact hlrws (List.dropWhile_eq_nil_iff.mpr (rstripP_eq_nil_iff.mp hnil))
            obtain ⟨y, hy⟩ := rstrip_head hrwlr_ne hlr2
            have hcs := core_split (c :: t.takeWhile (· != '\n'))
            by_cases hdws : isPyWs d
            · -- direct match on this line
              have hM : ((c :: t).dropWhile (· == '#')).takeWhile isPyWs =
                  ((c :: t.takeWhile (· != '\n')).dropWhile (· == '#')).takeWhile isPyWs := by
                rw [h_dwS]
                exact takeWhile_append_stop hlrws
              have hMne : ((c :: t.takeWhile (· != '\n')).dropWhile (· == '#')).takeWhile isPyWs ≠ [] := by
                rw [hlr2, List.takeWhile_cons, if_pos hdws]
                simp
              have hPOST : ((c :: t).dropWhile (· == '#')).dropWhile isPyWs =
                  ((c :: t.takeWhile (· != '\n')).dropWhile (· == '#')).dropWhile isPyWs ++
                    t.dropWhile (· != '\n') := by
                rw [h_dwS]
                exact dropWhile_append_stop hlrws
              obtain ⟨e, xx, hexx⟩ :
                  ∃ e xx, ((c :: t.takeWhile (· != '\n')).dropWhile (· == '#')).dropWhile isPyWs = e :: xx := by
                cases h2 : ((c :: t.takeWhile (· != '\n')).dropWhile (· == '#')).dropWhile isPyWs with
                | nil => exact absurd h2 hlrws
                | cons a b => exact ⟨a, b, rfl⟩
              have hgroup : (((c :: t.takeWhile (· != '\n')).dropWhile (· == '#')).dropWhile isPyWs ++
                  t.dropWhile (· != '\n')).takeWhile (· != '\n') =
                  ((c :: t.takeWhile (· != '\n')).dropWhile (· == '#')).dropWhile isPyWs := by
                refine takeWhile_noNl_append ?_ hshape
                intro x hx
                exact hnoNl x (hlr_sub x (mem_of_mem_dropWhile hx))
              have hth : tryHead (c :: t) =
                  some (((c :: t.takeWhile (· != '\n')).dropWhile (· == '#')).dropWhile isPyWs) := by
                simp only [tryHead]
                rw [h_tkS, hcond, hM, hPOST]
                simp only [Bool.false_eq_true, if_false, isEmpty_false_of_ne hMne]
                rw [hgroup, hexx, List.cons_append]
              rw [bigTitle_some_of_fh (findHeading_of_tryHead hth)]
              have hBneSide : Bne (nePieces (c :: t)) =
                  if 10 < (titleOf (rstripWs ((c :: t.takeWhile (· != '\n')).dropWhile (· == '#')))).length
                  then some (titleOf (rstripWs ((c :: t.takeWhile (· != '\n')).dropWhile (· == '#'))))
                  else none := by
                rw [nePieces_cons t hcb, isEmpty_false_of_ne hcore_ne]
                simp only [Bool.false_eq_true, if_false]
                have hBd := Bne_direct (nePieces (t.dropWhile (· != '\n')))
                  (by rw [hcs.1]; exact hcond) ((hcs.2).trans hy) hdws
                rw [hBd, hcs.2]
              rw [hBneSide, titleOf_dropWs, titleOf_rstripWs]
            · -- the character right after the hashes is not whitespace: no match here
              have hM : ((c :: t).dropWhile (· == '#')).takeWhile isPyWs = [] := by
                rw [h_dwS, hlr2]
                simp only [List.cons_append, List.takeWhile_cons, hdws]
                rfl
              have hth : tryHead (c :: t) = none := by
                simp only [tryHead]
                rw [h_tkS, hcond, hM]
                simp
              have hBneSkip : ∀ X, Bne (rstripWs (c :: t.takeWhile (· != '\n')) :: X) = Bne X := by
                intro X
                refine Bne_skip_noWs X ?_ ((hcs.2).trans hy) (by simpa using hdws)
                rw [hcs.1]; exact hcond
              rcases hshape with hre | ⟨r2, hre⟩
              · have hfh_stop : (c :: t).dropWhile (· != '\n') = [] := by rw [hdw_line, hre]
                rw [bigTitle_none_of_fh (findHeading_stop hth hfh_stop)]
                rw [nePieces_cons t hcb, isEmpty_false_of_ne hcore_ne]
                simp only [Bool.false_eq_true, if_false]
                rw [hre, nePieces_nil, hBneSkip]
                rfl
              · have hstep : (c :: t).dropWhile (· != '\n') = '\n' :: r2 := by
                  rw [hdw_line, hre]
                have hr2len : r2.length + 1 ≤ t.length := by
                  have := hrest_len
                  rw [hre] at this
                  simpa using this
                rw [bigTitle_congr (findHeading_step hth hstep)]
                rw [nePieces_cons t hcb, isEmpty_false_of_ne hcore_ne]
                simp only [Bool.false_eq_true, if_false]
                rw [hre, nePieces_nl, hBneSkip]
                exact ih r2 (by omega)
        · -- zero or more than three leading hashes: no match on this line
          have hcond : ((((c :: t.takeWhile (· != '\n')).takeWhile (· == '#')).length < 1 : Bool) ||
              (3 < ((c :: t.takeWhile (· != '\n')).takeWhile (· == '#')).length : Bool)) = true := by
            simp only [Bool.or_eq_true, decide_eq_true_eq]
            omega
          have hth : tryHead (c :: t) = none := by
            simp only [tryHead]
            rw [h_tkS, hcond]
            simp
          have hBneSkip : Bne (nePieces (c :: t)) = Bne (nePieces (t.dropWhile (· != '\n'))) := by
            rw [nePieces_cons t hcb]
            by_cases hcore : rstripWs (c :: t.takeWhile (· != '\n')) = []
            · rw [hcore]
              simp only [List.isEmpty_nil, if_pos]
            · rw [isEmpty_false_of_ne hcore]
              simp only [Bool.false_eq_true, if_false]
              refine Bne_skip_bad _ ?_
              rw [(core_split (c :: t.takeWhile (· != '\n'))).1]
              exact hcond
          rcases hshape with hre | ⟨r2, hre⟩
          · have hfh_stop : (c :: t).dropWhile (· != '\n') = [] := by rw [hdw_line, hre]
            rw [bigTitle_none_of_fh (findHeading_stop hth hfh_stop), hBneSkip, hre,
              nePieces_nil]
            rfl
          · have hstep : (c :: t).dropWhile (· != '\n') = '\n' :: r2 := by
              rw [hdw_line, hre]
            have hr2len : r2.length + 1 ≤ t.length := by
              have := hrest_len
              rw [hre] at this
              simpa using this
            rw [bigTitle_congr (findHeading_step hth hstep), hBneSkip, hre, nePieces_nl]
            exact ih r2 (by omega)

/-- Wrapper for `bigTitle_eq_Bne_aux`. -/
theorem bigTitle_eq_Bne (s : List Char) : bigTitle s = Bne (nePieces s) :=
  bigTitle_eq_Bne_aux s.length s (Nat.le_refl _)

section StageInvariance

theorem nlCollapse_append_noNl {a b : List Char}
    (ha : ∀ x ∈ a, (x == '\n') = false) :
    nlCollapse (a ++ b) = a ++ nlCollapse b := by
  induction a with
  | nil => simp
  | cons c a2 ih =>
    rw [List.cons_append, nlCollapse_cons _ (ha c (by simp))]
    rw [ih (fun x hx => ha x (by simp [hx]))]
    rfl

theorem nlCollapse_nl_head (r : List Char) :
    ∃ z, nlCollapse ('\n' :: r) = '\n' :: z := by
  rw [nlCollapse_nl]
  by_cases h : 3 ≤ (r.takeWhile (· == '\n')).length
  · rw [if_pos h]
    exact ⟨'\n' :: '\n' :: nlCollapse (r.dropWhile (· == '\n')), rfl⟩
  · rw [if_neg h]
    exact ⟨r.takeWhile (· == '\n') ++ nlCollapse (r.dropWhile (· == '\n')), rfl⟩

theorem nePieces_append_allNl {a : List Char} (x : List Char)
    (ha : ∀ y ∈ a, y = '\n') : nePieces (a ++ x) = nePieces x := by
  induction a with
  | nil => simp
  | cons c a2 ih =>
    have hc : c = '\n' := ha c (by simp)
    subst hc
    rw [List.cons_append, nePieces_nl]
    exact ih (fun y hy => ha y (by simp [hy]))

theorem nePieces_noNl {u : List Char} (hu : ∀ x ∈ u, (x != '\n') = true) :
    nePieces u = if (rstripWs u).isEmpty then [] else [rstripWs u] := by
  cases u with
  | nil => rfl
  | cons c t2 =>
    have hc : (c == '\n') = false := by
      have := hu c (by simp)
      simpa using this
    rw [nePieces_cons t2 hc]
    have htk : t2.takeWhile (· != '\n') = t2 :=
      List.takeWhile_eq_self_iff.mpr (fun x hx => hu x (by simp [hx]))
    have hdw : t2.dropWhile (· != '\n') = [] :=
      List.dropWhile_eq_nil_iff.mpr (fun x hx => hu x (by simp [hx]))
    rw [htk, hdw, nePieces_nil]

theorem nePieces_line_append {a : List Char} (x : List Char)
    (ha : ∀ y ∈ a, (y != '\n') = true) :
    nePieces (a ++ '\n' :: x) =
      if (rstripWs a).isEmpty then nePieces x else rstripWs a :: nePieces x := by
  cases a with
  | nil =>
    rw [List.nil_append, nePieces_nl]
    have h0 : rstripWs ([] : List Char) = [] := rfl
    rw [h0]
    simp
  | cons c a2 =>
    have hc : (c == '\n') = false := by
      have := ha c (by simp)
      simpa using this
    rw [List.cons_append, nePieces_cons _ hc]
    have ha2 : ∀ y ∈ a2, (y != '\n') = true := fun y hy => ha y (by simp [hy])
    have htk : (a2 ++ '\n' :: x).takeWhile (· != '\n') = a2 :=
      takeWhile_noNl_append ha2 (Or.inr ⟨x, rfl⟩)
    have hdw : (a2 ++ '\n' :: x).dropWhile (· != '\n') = '\n' :: x := by
      rw [dropWhile_append_all ha2, List.dropWhile_cons]
      simp
    rw [htk, hdw, nePieces_nl]

theorem rstripWs_rstripHT (u : List Char) : rstripWs (rstripHT u) = rstripWs u := by
  obtain ⟨w, hw, hwp⟩ := rstripP_decomp isHT u
  conv_rhs => rw [show u = rstripHT u ++ w from hw]
  unfold rstripWs
  rw [rstripP_append_all (fun x hx => isHT_ws (hwp x hx))]

theorem noNl_rstripHT {u : List Char} (hu : ∀ x ∈ u, (x != '\n') = true) :
    ∀ x ∈ rstripHT u, (x != '\n') = true :=
  fun x hx => hu x (mem_rstripP hx)

theorem nePieces_nlCollapse : ∀ n t, t.length ≤ n →
    nePieces (nlCollapse t) = nePieces t := by
  intro n
  induction n with
  | zero =>
    intro t hn
    have : t = [] := List.length_eq_zero.mp (Nat.le_zero.mp hn)
    subst this; rfl
  | succ n ih =>
    intro t hn
    cases t with
    | nil => rfl
    | cons c t' =>
      simp only [List.length_cons] at hn
      by_cases hc : c = '\n'
      · subst hc
        rw [nlCollapse_nl]
        have hrun : ∀ y ∈ (if 3 ≤ (t'.takeWhile (· == '\n')).length then ['\n', '\n', '\n']
            else '\n' :: t'.takeWhile (· == '\n')), y = '\n' := by
          intro y hy
          by_cases h : 3 ≤ (t'.takeWhile (· == '\n')).length
          · rw [if_pos h] at hy
            simpa using hy
          · rw [if_neg h] at hy
            rcases List.mem_cons.mp hy with rfl | hy2
            · rfl
            · have := mem_takeWhile_pred (fun x => x == '\n') hy2
              simpa using this
        rw [nePieces_append_allNl _ hrun]
        have hdlen := length_dropWhileP (· == '\n') t'
        rw [ih (t'.dropWhile (· == '\n')) (by omega)]
        rw [nePieces_nl]
        conv_rhs => rw [show t' = t'.takeWhile (· == '\n') ++ t'.dropWhile (· == '\n') from
          (List.takeWhile_append_dropWhile _ _).symm]
        rw [nePieces_append_allNl _ (fun y hy => by
          have := mem_takeWhile_pred (fun x => x == '\n') hy
          simpa using this)]
      · have hcb : (c == '\n') = false := by simpa using hc
        rw [nlCollapse_cons t' hcb]
        have hA : ∀ x ∈ t'.takeWhile (· != '\n'), (x == '\n') = false := by
          intro x hx
          have := mem_takeWhile_pred (fun y => y != '\n') hx
          simpa using this
        have hdecomp : t' = t'.takeWhile (· != '\n') ++ t'.dropWhile (· != '\n') :=
          (List.takeWhile_append_dropWhile _ _).symm
        have hcol : nlCollapse t' =
            t'.takeWhile (· != '\n') ++ nlCollapse (t'.dropWhile (· != '\n')) := by
          conv_lhs => rw [hdecomp]
          exact nlCollapse_append_noNl hA
        have hA' : ∀ x ∈ t'.takeWhile (· != '\n'), (x != '\n') = true := by
          intro x hx
          have h2 := mem_takeWhile_pred _ hx
          exact h2
        have hdlen := length_dropWhileP (· != '\n') t'
        cases hR : t'.dropWhile (· != '\n') with
        | nil =>
          rw [hR] at hcol
          rw [hcol, nlCollapse_nil, List.append_nil]
          have hshow : c :: t' = c :: t'.takeWhile (· != '\n') := by
            conv_lhs => rw [hdecomp, hR]
            simp
          conv_rhs => rw [hshow]
        | cons d r2 =>
          have hd : d = '\n' := by
            have := dropWhile_head_not hR
            simpa using this
          subst hd
          obtain ⟨z, hz⟩ := nlCollapse_nl_head r2
          rw [hR] at hcol
          rw [hcol, hz]
          have h1 : nePieces (c :: (t'.takeWhile (· != '\n') ++ '\n' :: z)) =
              nePieces ((c :: t'.takeWhile (· != '\n')) ++ '\n' :: z) := rfl
          rw [h1, nePieces_line_append z (fun y hy => by
            rcases List.mem_cons.mp hy with rfl | hy2
            · simpa using hc
            · exact hA' y hy2)]
          have h2 : nePieces z = nePieces r2 := by
            have h3 : nePieces ('\n' :: z) = nePieces ('\n' :: r2) := by
              rw [← hz]
              rw [ih ('\n' :: r2) (by
                rw [hR] at hdlen
                simp only [List.length_cons] at hdlen ⊢
                omega)]
            rw [nePieces_nl, nePieces_nl] at h3
            exact h3
          have hshow2 : c :: t' = (c :: t'.takeWhile (· != '\n')) ++ '\n' :: r2 := by
            rw [List.cons_append]
            congr 1
            conv_lhs => rw [hdecomp, hR]
          conv_rhs => rw [hshow2]
          rw [nePieces_line_append r2 (fun y hy => by
            rcases List.mem_cons.mp hy with rfl | hy2
            · simpa using hc
            · exact hA' y hy2)]
          rw [h2]

end StageInvariance

theorem nePieces_stripLines : ∀ n t, t.length ≤ n →
    nePieces (stripLines t) = nePieces t := by
  intro n
  induction n with
  | zero =>
    intro t hn
    have : t = [] := List.length_eq_zero.mp (Nat.le_zero.mp hn)
    subst this; rfl
  | succ n ih =>
    intro t hn
    cases hR : t.dropWhile (· != '\n') with
    | nil =>
      have ht : ∀ x ∈ t, (x != '\n') = true := List.dropWhile_eq_nil_iff.mp hR
      rw [stripLines_noNl hR, nePieces_noNl (noNl_rstripHT ht), nePieces_noNl ht,
        rstripWs_rstripHT]
    | cons d r =>
      have hd : d = '\n' := by
        have := dropWhile_head_not hR
        simpa using this
      subst hd
      rw [stripLines_step hR]
      have hA : ∀ x ∈ t.takeWhile (· != '\n'), (x != '\n') = true := by
        intro x hx
        have h2 := mem_takeWhile_pred _ hx
        exact h2
      rw [nePieces_line_append _ (noNl_rstripHT hA), rstripWs_rstripHT]
      have hrlen : r.length + 1 ≤ t.length := by
        have := length_dropWhileP (· != '\n') t
        rw [hR] at this
        simpa using this
      rw [ih r (by omega)]
      conv_rhs => rw [show t = t.takeWhile (· != '\n') ++ '\n' :: r from by
        conv_lhs => rw [(List.takeWhile_append_dropWhile (· != '\n') t).symm, hR]]
      rw [nePieces_line_append _ hA]

theorem nePieces_append_allWs : ∀ n u w, u.length ≤ n →
    (∀ x ∈ w, isPyWs x = true) → nePieces (u ++ w) = nePieces u := by
  intro n
  induction n with
  | zero =>
    intro u w hn hw
    have : u = [] := List.length_eq_zero.mp (Nat.le_zero.mp hn)
    subst this
    rw [List.nil_append, nePieces_nil]
    exact allWs_nePieces w.length w (Nat.le_refl _) hw
  | succ n ih =>
    intro u w hn hw
    cases u with
    | nil =>
      rw [List.nil_append, nePieces_nil]
      exact allWs_nePieces w.length w (Nat.le_refl _) hw
    | cons c u2 =>
      simp only [List.length_cons] at hn
      by_cases hc : c = '\n'
      · subst hc
        rw [List.cons_append, nePieces_nl, nePieces_nl]
        exact ih u2 w (by omega) hw
      · have hcb : (c == '\n') = false := by simpa using hc
        rw [List.cons_append, nePieces_cons (u2 ++ w) hcb, nePieces_cons u2 hcb]
        cases hR : u2.dropWhile (· != '\n') with
        | nil =>
          have hu2 : ∀ x ∈ u2, (x != '\n') = true := List.dropWhile_eq_nil_iff.mp hR
          have htk2 : u2.takeWhile (· != '\n') = u2 := List.takeWhile_eq_self_iff.mpr hu2
          have htkw : (u2 ++ w).takeWhile (· != '\n') =
              u2 ++ w.takeWhile (· != '\n') := takeWhile_append_all hu2
          have hdww : (u2 ++ w).dropWhile (· != '\n') = w.dropWhile (· != '\n') :=
            dropWhile_append_all hu2
          have hcore : rstripWs (c :: (u2 ++ w.takeWhile (· != '\n'))) =
              rstripWs (c :: u2) := by
            have h1 : c :: (u2 ++ w.takeWhile (· != '\n')) =
                (c :: u2) ++ w.takeWhile (· != '\n') := by simp
            rw [h1]
            unfold rstripWs
            exact rstripP_append_all (fun x hx => hw x (mem_of_mem_takeWhile hx))
          rw [htkw, hdww, htk2, hcore, nePieces_nil]
          have hwdw : ∀ x ∈ w.dropWhile (· != '\n'), isPyWs x = true :=
            fun x hx => hw x (mem_of_mem_dropWhile hx)
          rw [allWs_nePieces _ _ (Nat.le_refl _) hwdw]
        | cons d r2 =>
          have hd : d = '\n' := by
            have := dropWhile_head_not hR
            simpa using this
          subst hd
          have hstop : u2.dropWhile (· != '\n') ≠ [] := by rw [hR]; simp
          have htkw : (u2 ++ w).takeWhile (· != '\n') = u2.takeWhile (· != '\n') :=
            takeWhile_append_stop hstop
          have hdww : (u2 ++ w).dropWhile (· != '\n') =
              u2.dropWhile (· != '\n') ++ w := dropWhile_append_stop hstop
          rw [htkw, hdww, hR, List.cons_append, nePieces_nl, nePieces_nl]
          have hrlen : r2.length + 1 ≤ u2.length := by
            have := length_dropWhileP (· != '\n') u2
            rw [hR] at this
            simpa using this
          rw [ih r2 w (by omega) hw]

theorem nePieces_rstripNl (u : List Char) :
    nePieces (rstripWs u ++ ['\n']) = nePieces u := by
  rw [nePieces_append_allWs (rstripWs u).length (rstripWs u) ['\n'] (Nat.le_refl _)
    (by intro x hx; simp at hx; rw [hx]; exact ws_nl)]
  obtain ⟨w, hw, hwp⟩ := rstripP_decomp isPyWs u
  have hw' : u = rstripWs u ++ w := hw
  conv_rhs => rw [hw']
  rw [nePieces_append_allWs (rstripWs u).length (rstripWs u) w (Nat.le_refl _) hwp]

/-- `clean_markdown` preserves the non-blank line cores of a text. -/
theorem nePieces_clean (t : List Char) :
    nePieces (clean_markdown t) = nePieces t := by
  unfold clean_markdown
  rw [nePieces_rstripNl, nePieces_stripLines (nlCollapse t).length _ (Nat.le_refl _),
    nePieces_nlCollapse t.length t (Nat.le_refl _)]

section TokenInvariance

theorem pyTokens_allWs : ∀ n w, w.length ≤ n → (∀ x ∈ w, isPyWs x = true) →
    pyTokens w = [] := by
  intro n
  induction n with
  | zero =>
    intro w hn _
    have : w = [] := List.length_eq_zero.mp (Nat.le_zero.mp hn)
    subst this; rfl
  | succ n ih =>
    intro w hn hw
    cases w with
    | nil => rfl
    | cons c t =>
      simp only [List.length_cons] at hn
      rw [pyTokens_ws t (hw c (by simp))]
      exact ih t (by omega) (fun x hx => hw x (by simp [hx]))

theorem pyTokens_ws_pref {w : List Char} (x : List Char)
    (hw : ∀ y ∈ w, isPyWs y = true) : pyTokens (w ++ x) = pyTokens x := by
  induction w with
  | nil => simp
  | cons c t ih =>
    rw [List.cons_append, pyTokens_ws _ (hw c (by simp))]
    exact ih (fun y hy => hw y (by simp [hy]))

theorem pyTokens_sep : ∀ n a b, a.length ≤ n →
    (b = [] ∨ ∃ d bs, b = d :: bs ∧ isPyWs d = true) →
    pyTokens (a ++ b) = pyTokens a ++ pyTokens b := by
  intro n
  induction n with
  | zero =>
    intro a b hn _
    have : a = [] := List.length_eq_zero.mp (Nat.le_zero.mp hn)
    subst this
    simp [pyTokens_nil]
  | succ n ih =>
    intro a b hn hb
    cases a with
    | nil => simp [pyTokens_nil]
    | cons c a2 =>
      simp only [List.length_cons] at hn
      by_cases hc : isPyWs c
      · rw [List.cons_append, pyTokens_ws _ hc, pyTokens_ws _ hc]
        exact ih a2 b (by omega) hb
      · have hcb : isPyWs c = false := by simpa using hc
        rw [List.cons_append, pyTokens_cons _ hcb, pyTokens_cons _ hcb]
        by_cases hstop : a2.dropWhile (fun x => !(isPyWs x)) = []
        · have ha2 : ∀ x ∈ a2, (!(isPyWs x)) = true := List.dropWhile_eq_nil_iff.mp hstop
          have htk : (a2 ++ b).takeWhile (fun x => !(isPyWs x)) =
              a2 ++ b.takeWhile (fun x => !(isPyWs x)) := takeWhile_append_all ha2
          have htkb : b.takeWhile (fun x => !(isPyWs x)) = [] := by
            rcases hb with rfl | ⟨d, bs, rfl, hd⟩
            · rfl
            · rw [List.takeWhile_cons]
              simp [hd]
          have hdwb : b.dropWhile (fun x => !(isPyWs x)) = b := by
            rcases hb with rfl | ⟨d, bs, rfl, hd⟩
            · rfl
            · rw [List.dropWhile_cons]
              simp [hd]
          have hdw : (a2 ++ b).dropWhile (fun x => !(isPyWs x)) = b := by
            rw [dropWhile_append_all ha2, hdwb]
          rw [htk, htkb, hdw, hstop, List.append_nil,
            List.takeWhile_eq_self_iff.mpr ha2, pyTokens_nil]
          simp
        · have htk : (a2 ++ b).takeWhile (fun x => !(isPyWs x)) =
              a2.takeWhile (fun x => !(isPyWs x)) := takeWhile_append_stop hstop
          have hdw : (a2 ++ b).dropWhile (fun x => !(isPyWs x)) =
              a2.dropWhile (fun x => !(isPyWs x)) ++ b := dropWhile_append_stop hstop
          rw [htk, hdw]
          have hlen := length_dropWhileP (fun x => !(isPyWs x)) a2
          rw [ih (a2.dropWhile (fun x => !(isPyWs x))) b (by omega) hb]
          simp

theorem pyTokens_append_allWs {u : List Char} (w : List Char)
    (hw : ∀ x ∈ w, isPyWs x = true) : pyTokens (u ++ w) = pyTokens u := by
  rw [pyTokens_sep u.length u w (Nat.le_refl _) ?_]
  · rw [pyTokens_allWs w.length w (Nat.le_refl _) hw, List.append_nil]
  · cases w with
    | nil => exact Or.inl rfl
    | cons d bs => exact Or.inr ⟨d, bs, rfl, hw d (by simp)⟩

theorem nonWs_noNl {x : Char} (h : (!(isPyWs x)) = true) : (x == '\n') = false := by
  by_cases hx : x = '\n'
  · subst hx
    rw [ws_nl] at h
    simp at h
  · simpa using hx

theorem pyTokens_nlCollapse : ∀ n t, t.length ≤ n →
    pyTokens (nlCollapse t) = pyTokens t := by
  intro n
  induction n with
  | zero =>
    intro t hn
    have : t = [] := List.length_eq_zero.mp (Nat.le_zero.mp hn)
    subst this; rfl
  | succ n ih =>
    intro t hn
    cases t with
    | nil => rfl
    | cons c t' =>
      simp only [List.length_cons] at hn
      by_cases hc : c = '\n'
      · subst hc
        rw [nlCollapse_nl]
        have hrun : ∀ y ∈ (if 3 ≤ (t'.takeWhile (· == '\n')).length then ['\n', '\n', '\n']
            else '\n' :: t'.takeWhile (· == '\n')), isPyWs y = true := by
          intro y hy
          by_cases h : 3 ≤ (t'.takeWhile (· == '\n')).length
          · rw [if_pos h] at hy
            have : y = '\n' := by simpa using hy
            rw [this]; exact ws_nl
          · rw [if_neg h] at hy
            rcases List.mem_cons.mp hy with rfl | hy2
            · exact ws_nl
            · have : y = '\n' := by
                have h2 := mem_takeWhile_pred (fun x => x == '\n') hy2
                simpa using h2
              rw [this]; exact ws_nl
        rw [pyTokens_ws_pref _ hrun]
        have hdlen := length_dropWhileP (· == '\n') t'
        rw [ih (t'.dropWhile (· == '\n')) (by omega)]
        rw [pyTokens_ws _ ws_nl]
        conv_rhs => rw [show t' = t'.takeWhile (· == '\n') ++ t'.dropWhile (· == '\n') from
          (List.takeWhile_append_dropWhile _ _).symm]
        rw [pyTokens_ws_pref _ (fun y hy => by
          have h2 := mem_takeWhile_pred (fun x => x == '\n') hy
          have : y = '\n' := by simpa using h2
          rw [this]; exact ws_nl)]
      · have hcb : (c == '\n') = false := by simpa using hc
        rw [nlCollapse_cons t' hcb]
        by_cases hcw : isPyWs c
        · rw [pyTokens_ws _ hcw, pyTokens_ws _ hcw]
          exact ih t' (by omega)
        · have hcwb : isPyWs c = false := by simpa using hcw
          rw [pyTokens_cons _ hcwb, pyTokens_cons _ hcwb]
          have hWnoNl : ∀ x ∈ t'.takeWhile (fun x => !(isPyWs x)), (x == '\n') = false := by
            intro x hx
            exact nonWs_noNl (mem_takeWhile_pred _ hx)
          have hWall : ∀ x ∈ t'.takeWhile (fun x => !(isPyWs x)), (!(isPyWs x)) = true := by
            intro x hx
            have h2 := mem_takeWhile_pred _ hx
            exact h2
          have hdecomp : t' = t'.takeWhile (fun x => !(isPyWs x)) ++
              t'.dropWhile (fun x => !(isPyWs x)) :=
            (List.takeWhile_append_dropWhile _ _).symm
          have hcol : nlCollapse t' = t'.takeWhile (fun x => !(isPyWs x)) ++
              nlCollapse (t'.dropWhile (fun x => !(isPyWs x))) := by
            conv_lhs => rw [hdecomp]
            exact nlCollapse_append_noNl hWnoNl
          have hdlen := length_dropWhileP (fun x => !(isPyWs x)) t'
          cases hX : t'.dropWhile (fun x => !(isPyWs x)) with
          | nil =>
            rw [hX] at hcol
            rw [hcol, nlCollapse_nil, List.append_nil,
              List.takeWhile_eq_self_iff.mpr hWall, List.dropWhile_eq_nil_iff.mpr hWall]
          | cons d x2 =>
            have hd : isPyWs d = true := by
              have h2 := dropWhile_head_not hX
              simpa using h2
            obtain ⟨hd2, z2, hz, hzw⟩ : ∃ hd2 z2, nlCollapse (d :: x2) = hd2 :: z2 ∧
                isPyWs hd2 = true := by
              by_cases hdn : d = '\n'
              · subst hdn
                obtain ⟨z, hz⟩ := nlCollapse_nl_head x2
                exact ⟨'\n', z, hz, ws_nl⟩
              · rw [nlCollapse_cons x2 (by simpa using hdn)]
                exact ⟨d, nlCollapse x2, rfl, hd⟩
            rw [hX] at hcol
            rw [hcol, hz]
            have htk : (t'.takeWhile (fun x => !(isPyWs x)) ++ hd2 :: z2).takeWhile
                (fun x => !(isPyWs x)) = t'.takeWhile (fun x => !(isPyWs x)) := by
              rw [takeWhile_append_all hWall, List.takeWhile_cons]
              simp [hzw]
            have hdw : (t'.takeWhile (fun x => !(isPyWs x)) ++ hd2 :: z2).dropWhile
                (fun x => !(isPyWs x)) = hd2 :: z2 := by
              rw [dropWhile_append_all hWall, List.dropWhile_cons]
              simp [hzw]
            rw [htk, hdw, ← hz]
            have hxlen : (d :: x2).length ≤ n := by
              rw [hX] at hdlen
              omega
            rw [ih (d :: x2) hxlen]

theorem pyTokens_stripLines : ∀ n t, t.length ≤ n →
    pyTokens (stripLines t) = pyTokens t := by
  intro n
  induction n with
  | zero =>
    intro t hn
    have : t = [] := List.length_eq_zero.mp (Nat.le_zero.mp hn)
    subst this; rfl
  | succ n ih =>
    intro t hn
    cases hR : t.dropWhile (· != '\n') with
    | nil =>
      rw [stripLines_noNl hR]
      obtain ⟨w, hw, hwp⟩ := rstripP_decomp isHT t
      have hw' : t = rstripHT t ++ w := hw
      conv_rhs => rw [hw']
      rw [pyTokens_append_allWs w (fun x hx => isHT_ws (hwp x hx))]
    | cons d r =>
      have hd : d = '\n' := by
        have h2 := dropWhile_head_not hR
        simpa using h2
      subst hd
      rw [stripLines_step hR]
      have hsep1 : pyTokens (rstripHT (t.takeWhile (· != '\n')) ++ '\n' :: stripLines r) =
          pyTokens (rstripHT (t.takeWhile (· != '\n'))) ++ pyTokens ('\n' :: stripLines r) :=
        pyTokens_sep _ _ _ (Nat.le_refl _) (Or.inr ⟨'\n', stripLines r, rfl, ws_nl⟩)
      rw [hsep1, pyTokens_ws _ ws_nl]
      obtain ⟨w, hw, hwp⟩ := rstripP_decomp isHT (t.takeWhile (· != '\n'))
      have h2 : pyTokens (t.takeWhile (· != '\n')) =
          pyTokens (rstripHT (t.takeWhile (· != '\n'))) := by
        conv_lhs => rw [hw]
        rw [pyTokens_append_allWs w (fun x hx => isHT_ws (hwp x hx))]
        rfl
      have hrlen : r.length + 1 ≤ t.length := by
        have := length_dropWhileP (· != '\n') t
        rw [hR] at this
        simpa using this
      rw [ih r (by omega)]
      conv_rhs => rw [show t = t.takeWhile (· != '\n') ++ '\n' :: r from by
        conv_lhs => rw [(List.takeWhile_append_dropWhile (· != '\n') t).symm, hR]]
      rw [pyTokens_sep _ _ _ (Nat.le_refl _) (Or.inr ⟨'\n', r, rfl, ws_nl⟩),
        pyTokens_ws _ ws_nl, h2]

theorem pyTokens_rstripNl (u : List Char) :
    pyTokens (rstripWs u ++ ['\n']) = pyTokens u := by
  rw [pyTokens_append_allWs ['\n'] (by intro x hx; simp at hx; rw [hx]; exact ws_nl)]
  obtain ⟨w, hw, hwp⟩ := rstripP_decomp isPyWs u
  have hw' : u = rstripWs u ++ w := hw
  conv_rhs => rw [hw']
  rw [pyTokens_append_allWs w hwp]

/-- `clean_markdown` preserves the whitespace-split token list of a text,
hence in particular the word count. -/
theorem pyTokens_clean (t : List Char) :
    pyTokens (clean_markdown t) = pyTokens t := by
  unfold clean_markdown
  rw [pyTokens_rstripNl, pyTokens_stripLines (nlCollapse t).length _ (Nat.le_refl _),
    pyTokens_nlCollapse t.length t (Nat.le_refl _)]

end TokenInvariance

section Stability

theorem extract_title_eq_getD (md fb : List Char) :
    extract_title md fb = (bigTitle md).getD (fbRepl fb) := by
  unfold extract_title bigTitle
  cases findHeading md with
  | none => rfl
  | some g =>
    dsimp only
    by_cases h : 10 < (titleOf g).length
    · rw [if_pos h, if_pos h]
      rfl
    · rw [if_neg h, if_neg h]
      rfl

/-- Title stability: running `extract_title` after `clean_markdown` yields
the same title as running it on the raw text. -/
theorem extract_title_clean (md fb : List Char) :
    extract_title (clean_markdown md) fb = extract_title md fb := by
  rw [extract_title_eq_getD, extract_title_eq_getD, bigTitle_eq_Bne, bigTitle_eq_Bne,
    nePieces_clean]

/-- Word-count stability: `clean_markdown` does not change the
whitespace-split word count. -/
theorem word_count_clean (md : List Char) :
    (pyTokens (clean_markdown md)).length = (pyTokens md).length := by
  rw [pyTokens_clean]

end Stability

section Utils

/-- Scanner for `re.sub(r"_+", "_", s)`: collapse each maximal `_` run to a
single underscore (the flag records whether the previous character was part
of a run). -/
def collapseUndF : Bool → List Char → List Char
  | _, [] => []
  | prev, c :: t =>
    if c == '_' then
      if prev then collapseUndF true t else '_' :: collapseUndF true t
    else c :: collapseUndF false t

/-- `re.sub(r"_+", "_", s)`. -/
def collapseUnd (s : List Char) : List Char := collapseUndF false s

/-- Python `str.strip("_")`. -/
def stripUnd (s : List Char) : List Char := rstripP (· == '_') (s.dropWhile (· == '_'))

/-- Fuelled split on a separator character (used for `pathlib` path
components). -/
def splitOnCF : Nat → Char → List Char → List (List Char)
  | 0, _, _ => []
  | n + 1, sep, s =>
    let a := s.takeWhile (· != sep)
    let r := s.dropWhile (· != sep)
    match r with
    | [] => [a]
    | _ :: rest => a :: splitOnCF n sep rest

/-- Split a list on a separator character. -/
def splitOnC (sep : Char) (s : List Char) : List (List Char) :=
  splitOnCF (s.length + 1) sep s

/-- `pathlib.PurePath(p).name`: the last path component after dropping empty
and `"."` components (verified against CPython `pathlib` on exhaustive
small inputs). -/
def pathName (p : List Char) : List Char :=
  (((splitOnC '/' p).filter (fun c => !(c.isEmpty) && c != ['.'])).getLast?).getD []

/-- The suffix-stripping rule of `pathlib` stems: drop the final `.ext` when
the last dot sits strictly inside the name (`0 < i < len(name)-1` for
`i = name.rfind('.')`). -/
def pathStemOfName (base : List Char) : List Char :=
  let sfx := base.reverse.takeWhile (· != '.')
  if sfx.length + 1 < base.length ∧ 1 ≤ sfx.length then
    base.take (base.length - sfx.length - 1)
  else base

/-- `pathlib.PurePath(p).stem`. -/
def pathStem (p : List Char) : List Char := pathStemOfName (pathName p)

/-- The characters removed by `sanitize_filename`:
`re.sub(r"[,;:'\"—–]", "", stem)`. -/
def badFileChars : List Char := [',', ';', ':', '\'', '"', '—', '–']

/-- `sanitize_filename` from `src/mdconv/utils.py`. -/
def sanitize_filename (name : List Char) : List Char :=
  let stem0 := pathStem name
  let stem1 := replaceChar ' ' ['_'] stem0
  let stem2 := stem1.filter (fun c => !(badFileChars.contains c))
  let stem3 := collapseUnd stem2
  let stem4 := stripUnd stem3
  stem4 ++ ".md".data

/-- `escape_yaml_string` from `src/mdconv/utils.py`:
`value.replace("\\", "\\\\").replace('"', '\\"')`. -/
def escape_yaml_string (value : List Char) : List Char :=
  replaceChar '"' ['\\', '"'] (replaceChar '\\' ['\\', '\\'] value)

/-- Fuelled scanner for `re.sub(r"\[([^\]]+)\]\([^)]+\)", r"\1", text)`:
at a `[`, the label is the maximal run of non-`]` characters (which must be
non-empty and followed by `](`), the URL the maximal run of non-`)`
characters (non-empty, followed by `)`); on a full match the whole link is
replaced by the label, otherwise the scanner advances one character. -/
def strip_linksF : Nat → List Char → List Char
  | 0, _ => []
  | _ + 1, [] => []
  | n + 1, c :: t =>
    if c == '[' then
      let lab := t.takeWhile (· != ']')
      let r1 := t.dropWhile (· != ']')
      match r1 with
      | ']' :: '(' :: r2 =>
        if lab.isEmpty then c :: strip_linksF n t
        else
          let url := r2.takeWhile (· != ')')
          let r3 := r2.dropWhile (· != ')')
          match r3 with
          | ')' :: r4 =>
            if url.isEmpty then c :: strip_linksF n t else lab ++ strip_linksF n r4
          | _ => c :: strip_linksF n t
      | _ => c :: strip_linksF n t
    else c :: strip_linksF n t

/-- `strip_links` from `src/mdconv/utils.py`. -/
def strip_links (s : List Char) : List Char := strip_linksF s.length s

/-- Characters permitted in a URL scheme by `urllib.parse`. -/
def schemeChars : List Char :=
  "abcdefghijklmnopqrstuvwxyzABCDEFGHIJKLMNOPQRSTUVWXYZ0123456789+-.".data

/-- `urllib.parse` accepts a scheme iff it is non-empty, starts with an
ASCII letter, and consists of scheme characters only. -/
def validScheme (pre : List Char) : Bool :=
  match pre with
  | [] => false
  | c :: _ => c.isAlpha && pre.all (fun x => schemeChars.contains x)

/-- Split off the scheme of a URL, lowercased, as `urllib.parse.urlsplit`
does (verified against CPython on random inputs). -/
def urlSchemeSplit (u : List Char) : List Char × List Char :=
  let pre := u.takeWhile (· != ':')
  if pre.length < u.length && validScheme pre then
    (pre.map Char.toLower, u.drop (pre.length + 1))
  else ([], u)

/-- The schemes for which `urllib.parse.urlparse` splits `;parameters` off
the last path segment. -/
def usesParams : List (List Char) :=
  [[], "ftp".data, "hdl".data, "prospero".data, "http".data, "imap".data,
   "https".data, "shttp".data, "rtsp".data, "rtspu".data, "sip".data,
   "sips".data, "mms".data, "sftp".data, "tel".data]

/-- `urllib.parse.urlparse(u)` restricted to the `(scheme, netloc, path)`
components used by the repository (verified against CPython on 500k random
inputs). -/
def urlParse3 (u : List Char) : List Char × List Char × List Char :=
  let sr := urlSchemeSplit u
  let rest1 := sr.2.takeWhile (· != '#')
  let rest2 := rest1.takeWhile (· != '?')
  let np : List Char × List Char :=
    match rest2 with
    | '/' :: '/' :: r2 =>
      (r2.takeWhile (fun c => c != '/' && c != '?' && c != '#'),
        r2.dropWhile (fun c => c != '/' && c != '?' && c != '#'))
    | _ => ([], rest2)
  let path :=
    if usesParams.contains sr.1 then
      let lastSegRev := np.2.reverse.takeWhile (· != '/')
      if lastSegRev.length = np.2.length then np.2.takeWhile (· != ';')
      else np.2.take (np.2.length - lastSegRev.length) ++
        lastSegRev.reverse.takeWhile (· != ';')
    else np.2
  (sr.1, np.1, path)

/-- `url_to_filename` from `src/mdconv/utils.py`. -/
def url_to_filename (url : List Char) : List Char :=
  let p := urlParse3 url
  let raw0 := p.2.1 ++ p.2.2
  let raw1 := replaceChar '.' ['_'] raw0
  let raw2 := replaceChar '/' ['_'] raw1
  let raw3 := stripUnd raw2
  let raw4 := collapseUnd raw3
  raw4 ++ ".md".data

/-- Decimal rendering of a number, as inserted by the f-strings. -/
def natChars (n : Nat) : List Char := (Nat.repr n).data

/-- `fetch_url` from `src/mdconv/converters/html.py`.  The network is
modelled by the oracle `fetcher`: `.error e` stands for a raised exception
with message `e`, `.ok none` for `trafilatura.fetch_url` returning `None`,
and `.ok (some html)` for a successful fetch.  The scheme check happens
before the oracle is consulted. -/
def fetch_url (fetcher : List Char → Except (List Char) (Option (List Char)))
    (url : List Char) : Except (List Char) (List Char) :=
  let sch := (urlParse3 url).1
  if sch = "http".data ∨ sch = "https".data then
    match fetcher url with
    | .error e => .error ("Error fetching URL: ".data ++ e)
    | .ok none => .error ("Failed to fetch URL: ".data ++ url)
    | .ok (some html) => .ok html
  else
    .error ("Unsupported URL scheme: '".data ++ sch ++ "' (only http/https allowed)".data)

end Utils

section Converters

/-- Result of one converter invocation: the boolean returned, the status
line printed, and the content written to the output file (`none` when the
converter does not write). -/
structure ConvResult where
  success : Bool
  line : List Char
  written : Option (List Char)
deriving DecidableEq

namespace mdconv

/-- `convert_docx` from `src/mdconv/converters/docx.py`, modelled from the
point where `markdownify.markdownify(mammoth.convert_to_html(f).value, ...)`
has produced `md_text` (the conversion libraries are external oracles).
`outExists` models `out_path.exists()`.  In this variant the title and word
count are computed from the raw `md_text`, the frontmatter is built with
unescaped values, and the optional link-stripping runs over the
concatenation of frontmatter and cleaned body. -/
def convert_docx (md_text docx_path : List Char)
    (outExists force strip_links_flag : Bool) : ConvResult :=
  let out_name := sanitize_filename (pathName docx_path)
  if outExists && !force then
    { success := true, line := "  SKIP (exists): ".data ++ out_name, written := none }
  else
    let title := extract_title md_text (pathStem docx_path)
    let word_count := (pyTokens md_text).length
    let frontmatter :=
      "---\ntitle: \"".data ++ title ++ "\"\nsource_file: \"".data ++
        pathName docx_path ++ "\"\nword_count: ".data ++ natChars word_count ++
        "\ntype: docx\n---\n\n".data
    let full_text0 := frontmatter ++ clean_markdown md_text
    let full_text := if strip_links_flag then strip_links full_text0 else full_text0
    { success := true,
      line := "  OK: ".data ++ out_name ++ " (".data ++ natChars word_count ++
        " words)".data,
      written := some full_text }

/-- `convert_pdf` from `src/mdconv/converters/pdf.py`, modelled from the
point where `pymupdf` has produced `page_count` and `pymupdf4llm.to_markdown`
has produced `md_text`.  Cleanup and optional link-stripping run first, the
title is extracted from the finalized body, and all YAML values are
escaped. -/
def convert_pdf (md_text pdf_path : List Char) (page_count : Nat)
    (outExists force strip_links_flag : Bool) : ConvResult :=
  let out_name := sanitize_filename (pathName pdf_path)
  if outExists && !force then
    { success := true, line := "  SKIP (exists): ".data ++ out_name, written := none }
  else
    let md1 := clean_markdown md_text
    let md2 := if strip_links_flag then strip_links md1 else md1
    let title := extract_title md2 (pathStem pdf_path)
    let frontmatter :=
      "---\ntitle: \"".data ++ escape_yaml_string title ++
        "\"\nsource_file: \"".data ++ escape_yaml_string (pathName pdf_path) ++
        "\"\npages: ".data ++ natChars page_count ++ "\ntype: pdf\n---\n\n".data
    { success := true,
      line := "  OK: ".data ++ out_name ++ " (".data ++ natChars page_count ++
        " pages)".data,
      written := some (frontmatter ++ md2) }

/-- `convert_html` from `src/mdconv/converters/html.py`, modelled from the
point where the BS4 pre-clean plus trafilatura extraction (with the
markdownify fallback) have produced `md_text` (steps 2-4 of the source; all
delegated to external libraries).  `html_path` carries the local path when
converting a file, `source_url` the URL when converting a fetched page; when
both are `none` the source raises `ValueError` before the `try` block, which
is modelled as a failure result with no write. -/
def convert_html (md_text : List Char) (html_path source_url : Option (List Char))
    (outExists force strip_links_flag : Bool) : ConvResult :=
  match source_url, html_path with
  | none, none =>
    { success := false,
      line := "ValueError: Either source_url or html_path must be provided".data,
      written := none }
  | su, hp =>
    let out_name :=
      match su with
      | some u => url_to_filename u
      | none => sanitize_filename (pathName (hp.getD []))
    if outExists && !force then
      { success := true, line := "  SKIP (exists): ".data ++ out_name, written := none }
    else
      let md1 := clean_markdown md_text
      let md2 := if strip_links_flag then strip_links md1 else md1
      let fallback :=
        match su, hp with
        | some u, _ => (urlParse3 u).2.1
        | none, some p => pathStem p
        | none, none => "untitled".data
      let title := extract_title md2 fallback
      let word_count := (pyTokens md2).length
      let source_field :=
        match su, hp with
        | some u, _ => "source_url: \"".data ++ escape_yaml_string u ++ "\"".data
        | none, some p =>
          "source_file: \"".data ++ escape_yaml_string (pathName p) ++ "\"".data
        | none, none => "source_file: \"unknown\"".data
      let frontmatter :=
        "---\ntitle: \"".data ++ escape_yaml_string title ++ "\"\n".data ++
          source_field ++ "\nword_count: ".data ++ natChars word_count ++
          "\ntype: html\n---\n\n".data
      { success := true,
        line := "  OK: ".data ++ out_name ++ " (".data ++ natChars word_count ++
          " words)".data,
        written := some (frontmatter ++ md2) }

end mdconv

namespace any2md

/-- `convert_docx` from `src/any2md/converters/docx.py`, modelled from the
same library boundary as the `mdconv` variant.  Here the body is cleaned and
optionally link-stripped first, the title and word count are computed from
the finalized body, and the YAML values are escaped. -/
def convert_docx (md_text docx_path : List Char)
    (outExists force strip_links_flag : Bool) : ConvResult :=
  let out_name := sanitize_filename (pathName docx_path)
  if outExists && !force then
    { success := true, line := "  SKIP (exists): ".data ++ out_name, written := none }
  else
    let md1 := clean_markdown md_text
    let md2 := if strip_links_flag then strip_links md1 else md1
    let title := extract_title md2 (pathStem docx_path)
    let word_count := (pyTokens md2).length
    let frontmatter :=
      "---\ntitle: \"".data ++ escape_yaml_string title ++
        "\"\nsource_file: \"".data ++ escape_yaml_string (pathName docx_path) ++
        "\"\nword_count: ".data ++ natChars word_count ++ "\ntype: docx\n---\n\n".data
    { success := true,
      line := "  OK: ".data ++ out_name ++ " (".data ++ natChars word_count ++
        " words)".data,
      written := some (frontmatter ++ md2) }

end any2md

/-- Modelled from the spec: the CLI caller for URL conversion is not part of
`src/`; per the specification it validates and fetches through `fetch_url`
and, on fetch failure, reports the failure and does not write a file; on
success it hands the page to the HTML converter (`extract` models the
HTML-to-markdown extraction applied to the fetched page). -/
def convert_from_url (fetcher : List Char → Except (List Char) (Option (List Char)))
    (extract : List Char → List Char) (url : List Char)
    (outExists force strip_links_flag : Bool) : ConvResult :=
  match fetch_url fetcher url with
  | .error e =>
    { success := false, line := "  FAIL: ".data ++ url ++ " -- ".data ++ e,
      written := none }
  | .ok html =>
    mdconv.convert_html (extract html) none (some url) outExists force strip_links_flag

end Converters

section EscapeLemmas

/-- Per-character effect of the two escaping passes. -/
def escYamlChar (c : Char) : List Char :=
  if c == '\\' then ['\\', '\\'] else if c == '"' then ['\\', '"'] else [c]

/-- Concatenation of a per-character expansion. -/
def concatMapChar (f : Char → List Char) : List Char → List Char
  | [] => []
  | c :: t => f c ++ concatMapChar f t

theorem replaceChar_cons (c : Char) (rep : List Char) (x : Char) (t : List Char) :
    replaceChar c rep (x :: t) = (if x == c then rep else [x]) ++ replaceChar c rep t := rfl

theorem replaceChar_append (c : Char) (rep a b : List Char) :
    replaceChar c rep (a ++ b) = replaceChar c rep a ++ replaceChar c rep b := by
  induction a with
  | nil => rfl
  | cons x t ih =>
    rw [List.cons_append, replaceChar_cons, replaceChar_cons, ih, List.append_assoc]

theorem escape_yaml_eq_concatMap (s : List Char) :
    escape_yaml_string s = concatMapChar escYamlChar s := by
  induction s with
  | nil => rfl
  | cons c t ih =>
    unfold escape_yaml_string at ih ⊢
    rw [replaceChar_cons, replaceChar_append, ih]
    show replaceChar '"' ['\\', '"'] (if c == '\\' then ['\\', '\\'] else [c]) ++ _ =
      escYamlChar c ++ _
    congr 1
    by_cases hb : c = '\\'
    · subst hb
      decide
    · have hb' : (c == '\\') = false := by simpa using hb
      have hbn : ¬ ((c == '\\') = true) := by rw [hb']; exact Bool.false_ne_true
      rw [if_neg hbn]
      unfold escYamlChar
      rw [if_neg hbn]
      by_cases hq : c = '"'
      · subst hq
        decide
      · have hq' : (c == '"') = false := by simpa using hq
        have hqn : ¬ ((c == '"') = true) := by rw [hq']; exact Bool.false_ne_true
        rw [if_neg hqn, replaceChar_cons, if_neg hqn]
        rfl

theorem replaceChar_noop {c : Char} {s : List Char} (h : c ∉ s) :
    replaceChar c rep s = s := by
  induction s with
  | nil => rfl
  | cons x t ih =>
    have hx : (x == c) = false := by
      simp only [List.mem_cons, not_or] at h
      exact beq_eq_false_iff_ne.mpr (fun hxc => h.1 hxc.symm)
    simp only [replaceChar, hx, if_neg, Bool.false_eq_true, not_false_iff]
    rw [ih (by simp only [List.mem_cons, not_or] at h; exact h.2)]
    rfl

theorem escape_yaml_noop {s : List Char} (hb : '\\' ∉ s) (hq : '"' ∉ s) :
    escape_yaml_string s = s := by
  unfold escape_yaml_string
  rw [replaceChar_noop hb, replaceChar_noop hq]

end EscapeLemmas

section StripLinksLemmas

theorem strip_linksF_fuel :
    ∀ n m s, s.length ≤ n → s.length ≤ m → strip_linksF n s = strip_linksF m s := by
  intro n
  induction n with
  | zero =>
    intro m s hn _
    have : s = [] := List.length_eq_zero.mp (Nat.le_zero.mp hn)
    subst this
    cases m <;> rfl
  | succ n ih =>
    intro m s hn hm
    cases s with
    | nil => cases m <;> rfl
    | cons c t =>
      cases m with
      | zero => exact absurd hm (by simp)
      | succ m =>
        simp only [List.length_cons] at hn hm
        have hlen1 := length_dropWhileP (· != ']') t
        simp only [strip_linksF]
        by_cases hc : c == '['
        · simp only [hc, if_pos]
          split
          · -- r1 = ']' :: '(' :: r2
            next r2 heq =>
              rw [heq] at hlen1
              simp only [List.length_cons] at hlen1
              by_cases hlab : (t.takeWhile (· != ']')).isEmpty
              · simp only [hlab, if_pos]
                rw [ih m t (by omega) (by omega)]
              · simp only [hlab, Bool.false_eq_true, if_false]
                have hlen3 := length_dropWhileP (· != ')') r2
                split
                · next r4 heq2 =>
                    rw [heq2] at hlen3
                    simp only [List.length_cons] at hlen3
                    by_cases hurl : (r2.takeWhile (· != ')')).isEmpty
                    · simp only [hurl, if_pos]
                      rw [ih m t (by omega) (by omega)]
                    · simp only [hurl, Bool.false_eq_true, if_false]
                      rw [ih m r4 (by omega) (by omega)]
                · next heq2 =>
                    rw [ih m t (by omega) (by omega)]
          · next heq =>
              rw [ih m t (by omega) (by omega)]
        · simp only [hc, Bool.false_eq_true, if_false]
          rw [ih m t (by omega) (by omega)]

end StripLinksLemmas

section LinkLemmas

theorem strip_links_pass {c : Char} (t : List Char) (hc : (c == '[') = false) :
    strip_links (c :: t) = c :: strip_links t := by
  show strip_linksF (c :: t).length (c :: t) = c :: strip_linksF t.length t
  simp only [List.length_cons, strip_linksF, hc, Bool.false_eq_true, if_false]

theorem strip_links_match (alt url post : List Char)
    (ha : alt ≠ []) (hma : ∀ c ∈ alt, (c != ']') = true)
    (hu : url ≠ []) (hmu : ∀ c ∈ url, (c != ')') = true) :
    strip_links ('[' :: (alt ++ ']' :: '(' :: (url ++ ')' :: post))) =
      alt ++ strip_links post := by
  have htake1 : (alt ++ ']' :: '(' :: (url ++ ')' :: post)).takeWhile (· != ']') = alt := by
    rw [takeWhile_append_all hma]
    simp
  have hdrop1 : (alt ++ ']' :: '(' :: (url ++ ')' :: post)).dropWhile (· != ']') =
      ']' :: '(' :: (url ++ ')' :: post) := by
    rw [dropWhile_append_all hma]
    simp
  have htake2 : (url ++ ')' :: post).takeWhile (· != ')') = url := by
    rw [takeWhile_append_all hmu]
    simp
  have hdrop2 : (url ++ ')' :: post).dropWhile (· != ')') = ')' :: post := by
    rw [dropWhile_append_all hmu]
    simp
  show strip_linksF ('[' :: (alt ++ ']' :: '(' :: (url ++ ')' :: post))).length
      ('[' :: (alt ++ ']' :: '(' :: (url ++ ')' :: post))) = alt ++ strip_linksF post.length post
  simp only [List.length_cons, strip_linksF]
  rw [if_pos (by decide : (('[' == '[') : Bool) = true)]
  rw [htake1, hdrop1]
  simp only [htake2, hdrop2, isEmpty_false_of_ne ha, isEmpty_false_of_ne hu,
    Bool.false_eq_true, if_false]
  congr 1
  apply strip_linksF_fuel
  · simp only [List.length_append, List.length_cons]
    omega
  · exact Nat.le_refl _

end LinkLemmas

section SanitizeLemmas

theorem mem_replaceChar {a : Char} {rep s : List Char} {c : Char}
    (h : c ∈ replaceChar a rep s) : c ∈ rep ∨ c ∈ s := by
  induction s with
  | nil => cases h
  | cons x t ih =>
    rw [replaceChar_cons] at h
    rcases List.mem_append.mp h with h1 | h2
    · by_cases hx : (x == a) = true
      · rw [if_pos hx] at h1
        exact Or.inl h1
      · rw [if_neg hx] at h1
        have hcx : c = x := by simpa using h1
        exact Or.inr (by rw [hcx]; exact List.mem_cons_self x t)
    · rcases ih h2 with h3 | h3
      · exact Or.inl h3
      · exact Or.inr (List.mem_cons_of_mem _ h3)

theorem not_mem_replaceChar_self {a : Char} {rep s : List Char} (hrep : a ∉ rep) :
    a ∉ replaceChar a rep s := by
  induction s with
  | nil => intro h; cases h
  | cons x t ih =>
    rw [replaceChar_cons]
    intro h
    rcases List.mem_append.mp h with h1 | h2
    · by_cases hx : (x == a) = true
      · rw [if_pos hx] at h1
        exact hrep h1
      · rw [if_neg hx] at h1
        have hax : a = x := by simpa using h1
        exact hx (by rw [← hax]; exact beq_self_eq_true a)
    · exact ih h2

/-- No two consecutive underscores. -/
def noDUnd : List Char → Bool
  | [] => true
  | [_] => true
  | a :: b :: t => !(a == '_' && b == '_') && noDUnd (b :: t)

theorem noDUnd_cons_cons (a b : Char) (t : List Char) :
    noDUnd (a :: b :: t) = (!(a == '_' && b == '_') && noDUnd (b :: t)) := rfl

theorem noDUnd_cons {a : Char} {t : List Char} (h : noDUnd (a :: t) = true) :
    noDUnd t = true := by
  cases t with
  | nil => rfl
  | cons b r =>
    rw [noDUnd_cons_cons, Bool.and_eq_true] at h
    exact h.2

theorem collapseUndF_cons (fl : Bool) (x : Char) (t : List Char) :
    collapseUndF fl (x :: t) =
      if x == '_' then (if fl then collapseUndF true t else '_' :: collapseUndF true t)
      else x :: collapseUndF false t := rfl

theorem collapseUndF_sub {c : Char} : ∀ (s : List Char) (fl : Bool),
    c ∈ collapseUndF fl s → c ∈ s := by
  intro s
  induction s with
  | nil => intro fl h; cases h
  | cons x t ih =>
    intro fl h
    rw [collapseUndF_cons] at h
    by_cases hx : (x == '_') = true
    · rw [if_pos hx] at h
      cases fl with
      | true =>
        exact List.mem_cons_of_mem _ (ih true h)
      | false =>
        rcases List.mem_cons.mp h with h1 | h1
        · have hxe : x = '_' := by simpa using hx
          rw [h1, ← hxe]
          exact List.mem_cons_self x t
        · exact List.mem_cons_of_mem _ (ih true h1)
    · rw [if_neg hx] at h
      rcases List.mem_cons.mp h with h1 | h1
      · rw [h1]
        exact List.mem_cons_self x t
      · exact List.mem_cons_of_mem _ (ih false h1)

theorem collapseUndF_true_head : ∀ (s r : List Char),
    collapseUndF true s = '_' :: r → False := by
  intro s
  induction s with
  | nil => intro r h; cases h
  | cons x t ih =>
    intro r h
    rw [collapseUndF_cons] at h
    by_cases hx : (x == '_') = true
    · rw [if_pos hx] at h
      exact ih r h
    · rw [if_neg hx] at h
      injection h with h1 h2
      exact hx (by rw [h1]; exact beq_self_eq_true '_')

theorem collapseUndF_noDUnd : ∀ (s : List Char) (fl : Bool),
    noDUnd (collapseUndF fl s) = true := by
  intro s
  induction s with
  | nil => intro fl; rfl
  | cons x t ih =>
    intro fl
    rw [collapseUndF_cons]
    by_cases hx : (x == '_') = true
    · rw [if_pos hx]
      cases fl with
      | true => exact ih true
      | false =>
        rw [if_neg Bool.false_ne_true]
        cases hX : collapseUndF true t with
        | nil => rfl
        | cons b r =>
          rw [noDUnd_cons_cons]
          have hb : (b == '_') = false := by
            by_cases hbb : (b == '_') = true
            · exact absurd (by rw [hX]; rw [show b = '_' from by simpa using hbb])
                (fun hh => collapseUndF_true_head t r hh)
            · exact Bool.eq_false_iff.mpr hbb
          rw [hb]
          have hrest := ih true
          rw [hX] at hrest
          rw [hrest]
          decide
    · rw [if_neg hx]
      cases hX : collapseUndF false t with
      | nil => rfl
      | cons b r =>
        rw [noDUnd_cons_cons]
        have hxf : (x == '_') = false := Bool.eq_false_iff.mpr hx
        rw [hxf]
        have hrest := ih false
        rw [hX] at hrest
        rw [hrest]
        simp

theorem collapseUndF_eq_of_head_ne {x : Char} (t : List Char) (hx : (x == '_') = false) :
    collapseUndF true (x :: t) = collapseUndF false (x :: t) := by
  rw [collapseUndF_cons, collapseUndF_cons,
    if_neg (by rw [hx]; exact Bool.false_ne_true),
    if_neg (by rw [hx]; exact Bool.false_ne_true)]

theorem collapseUnd_id {s : List Char} (h : noDUnd s = true) : collapseUnd s = s := by
  unfold collapseUnd
  revert h
  induction s with
  | nil => intro h; rfl
  | cons x t ih =>
    intro h
    rw [collapseUndF_cons]
    by_cases hx : (x == '_') = true
    · rw [if_pos hx, if_neg Bool.false_ne_true]
      have hxe : x = '_' := by simpa using hx
      cases t with
      | nil => rw [hxe]; rfl
      | cons b r =>
        have hb : (b == '_') = false := by
          have h2 : noDUnd (x :: b :: r) = true := h
          rw [noDUnd_cons_cons, Bool.and_eq_true] at h2
          have h3 := h2.1
          rw [hx, Bool.true_and] at h3
          simpa using h3
        rw [collapseUndF_eq_of_head_ne r hb]
        rw [ih (noDUnd_cons h)]
        rw [hxe]
    · rw [if_neg hx]
      rw [ih (noDUnd_cons h)]

theorem noDUnd_append_right {a b : List Char} (h : noDUnd (a ++ b) = true) :
    noDUnd b = true := by
  induction a with
  | nil => exact h
  | cons c t ih =>
    exact ih (noDUnd_cons (by simpa using h))

theorem noDUnd_append_left {a b : List Char} (h : noDUnd (a ++ b) = true) :
    noDUnd a = true := by
  induction a with
  | nil => rfl
  | cons c t ih =>
    cases t with
    | nil => rfl
    | cons d r =>
      have h' : noDUnd (c :: d :: (r ++ b)) = true := by simpa using h
      rw [noDUnd_cons_cons, Bool.and_eq_true] at h'
      rw [noDUnd_cons_cons, Bool.and_eq_true]
      exact ⟨h'.1, ih h'.2⟩

theorem mem_stripUnd {s : List Char} {c : Char} (h : c ∈ stripUnd s) : c ∈ s :=
  mem_of_mem_dropWhile (mem_rstripP h)

theorem noDUnd_stripUnd {s : List Char} (h : noDUnd s = true) :
    noDUnd (stripUnd s) = true := by
  have h1 : noDUnd (s.dropWhile (· == '_')) = true := by
    have hsplit : s.takeWhile (· == '_') ++ s.dropWhile (· == '_') = s :=
      List.takeWhile_append_dropWhile (· == '_') s
    exact noDUnd_append_right (by rw [hsplit]; exact h)
  obtain ⟨w, hw, _⟩ := rstripP_decomp (· == '_') (s.dropWhile (· == '_'))
  have h2 : noDUnd (stripUnd s ++ w) = true := by
    show noDUnd (rstripP (· == '_') (s.dropWhile (· == '_')) ++ w) = true
    rw [← hw]
    exact h1
  exact noDUnd_append_left h2

theorem rstripP_concat_not {p : Char → Bool} {c : Char} {r : List Char} (hc : p c = false) :
    rstripP p (r ++ [c]) = r ++ [c] := by
  have h1 : rstripP p ([c] : List Char) = if p c then [] else [c] :=
    rstripP_cons_nil (fun x hx => absurd hx (List.not_mem_nil x))
  rw [hc, if_neg (by exact fun h => nomatch h)] at h1
  rw [rstripP_append_ne (by rw [h1]; exact List.cons_ne_nil c []), h1]

theorem stripUnd_idem (s : List Char) : stripUnd (stripUnd s) = stripUnd s := by
  show stripUnd (rstripP (· == '_') (s.dropWhile (· == '_'))) =
    rstripP (· == '_') (s.dropWhile (· == '_'))
  cases hv : rstripP (· == '_') (s.dropWhile (· == '_')) with
  | nil => rfl
  | cons d y =>
    have hpre := rstripP_pref (· == '_') (s.dropWhile (· == '_'))
    rw [hv] at hpre
    obtain ⟨w, hw⟩ := hpre
    have hw2 : s.dropWhile (· == '_') = d :: (y ++ w) := by rw [← hw]; rfl
    have hd0 := dropWhile_head_not hw2
    have hd : (d == '_') = false := hd0
    show rstripP (· == '_') ((d :: y).dropWhile (· == '_')) = d :: y
    rw [List.dropWhile_cons_of_neg (by rw [hd]; exact fun h => nomatch h)]
    rw [← hv, rstripP_idem, hv]

theorem splitOnCF_no_sep : ∀ (n : Nat) (sep : Char) (s x : List Char),
    x ∈ splitOnCF n sep s → sep ∉ x := by
  intro n
  induction n with
  | zero => intro sep s x hx; cases hx
  | succ n ih =>
    intro sep s x hx
    simp only [splitOnCF] at hx
    cases hr : s.dropWhile (· != sep) with
    | nil =>
      rw [hr] at hx
      simp only [List.mem_singleton] at hx
      subst hx
      intro hc
      have := mem_takeWhile_pred (· != sep) hc
      simp at this
    | cons d rest =>
      rw [hr] at hx
      simp only [List.mem_cons] at hx
      rcases hx with h1 | h1
      · subst h1
        intro hc
        have := mem_takeWhile_pred (· != sep) hc
        simp at this
      · exact ih sep rest x h1

theorem getLast?_mem_ll : ∀ (L : List (List Char)) (x : List Char),
    L.getLast? = some x → x ∈ L := by
  intro L
  induction L with
  | nil => intro x h; cases h
  | cons a t ih =>
    intro x h
    cases t with
    | nil =>
      rw [List.getLast?_singleton] at h
      cases h
      exact List.mem_singleton.mpr rfl
    | cons b r =>
      rw [List.getLast?_cons_cons] at h
      exact List.mem_cons_of_mem _ (ih x h)

theorem pathName_no_slash (p : List Char) : '/' ∉ pathName p := by
  unfold pathName
  cases hg : ((splitOnC '/' p).filter (fun c => !(c.isEmpty) && c != ['.'])).getLast? with
  | none => simp
  | some x =>
    simp only [Option.getD_some]
    have hx : x ∈ (splitOnC '/' p).filter (fun c => !(c.isEmpty) && c != ['.']) :=
      getLast?_mem_ll _ _ hg
    have hx2 : x ∈ splitOnC '/' p := List.mem_of_mem_filter hx
    exact splitOnCF_no_sep _ _ _ _ hx2

theorem splitOnC_singleton {sep : Char} {s : List Char} (h : sep ∉ s) :
    splitOnC sep s = [s] := by
  have hall : ∀ c ∈ s, ((c != sep) : Bool) = true := by
    intro c hc
    have : c ≠ sep := fun he => h (he ▸ hc)
    simpa using this
  have hd : s.dropWhile (· != sep) = [] := by
    rw [List.dropWhile_eq_nil_iff]
    exact hall
  have ht : s.takeWhile (· != sep) = s := by
    have h0 : s.takeWhile (· != sep) ++ s.dropWhile (· != sep) = s :=
      List.takeWhile_append_dropWhile (· != sep) s
    rw [hd] at h0
    simpa using h0
  simp only [splitOnC, splitOnCF, ht, hd]

theorem pathName_simple {s : List Char} (hs : '/' ∉ s) (hne : s ≠ [])
    (hdot : s ≠ ['.']) : pathName s = s := by
  unfold pathName
  rw [splitOnC_singleton hs]
  have hp : (!(s.isEmpty) && s != ['.']) = true := by
    rw [isEmpty_false_of_ne hne]
    simpa using hdot
  simp only [List.filter_cons, List.filter_nil, hp, if_true]
  rfl

theorem pathStemOfName_sub {b : List Char} {c : Char} (h : c ∈ pathStemOfName b) :
    c ∈ b := by
  simp only [pathStemOfName] at h
  split at h
  · exact List.take_subset _ _ h
  · exact h

theorem pathStem_no_slash (p : List Char) : '/' ∉ pathStem p := by
  intro h
  exact pathName_no_slash p (pathStemOfName_sub h)

theorem pathStemOfName_append_md {b : List Char} (hb : b ≠ []) :
    pathStemOfName (b ++ ".md".data) = b := by
  have hrev : (b ++ ".md".data).reverse.takeWhile (· != '.') = ['d', 'm'] := by
    rw [List.reverse_append]
    show List.takeWhile (· != '.') ('d' :: 'm' :: '.' :: b.reverse) = ['d', 'm']
    rw [List.takeWhile_cons_of_pos (by decide), List.takeWhile_cons_of_pos (by decide),
      List.takeWhile_cons_of_neg (by decide)]
  have hlen : (b ++ ".md".data).length = b.length + 3 := by simp
  simp only [pathStemOfName, hrev]
  have hcond : (['d', 'm'] : List Char).length + 1 < (b ++ ".md".data).length ∧
      1 ≤ (['d', 'm'] : List Char).length := by
    constructor
    · rw [hlen]
      have hpos : 0 < b.length := List.length_pos.mpr hb
      simp only [List.length_cons, List.length_nil]
      omega
    · decide
  rw [if_pos hcond, hlen]
  have harith : b.length + 3 - (['d', 'm'] : List Char).length - 1 = b.length := by
    simp only [List.length_cons, List.length_nil]
    omega
  rw [harith]
  exact List.take_left b ".md".data

end SanitizeLemmas

section SanitizeIdem

/-- On a string already of the sanitized shape `s4 ++ ".md"`, every stage of
`sanitize_filename` is the identity. -/
theorem sanitize_second_pass {s4 : List Char} (hne : s4 ≠ [])
    (hsp : ' ' ∉ s4) (hbad : ∀ c ∈ s4, badFileChars.contains c = false)
    (hnd : noDUnd s4 = true) (hstrip : stripUnd s4 = s4) (hsl : '/' ∉ s4) :
    sanitize_filename (s4 ++ ".md".data) = s4 ++ ".md".data := by
  have hslash : '/' ∉ s4 ++ ".md".data := by
    intro hmem
    rcases List.mem_append.mp hmem with h1 | h1
    · exact hsl h1
    · exact absurd h1 (by decide)
  have hpn : pathName (s4 ++ ".md".data) = s4 ++ ".md".data := by
    refine pathName_simple hslash ?_ ?_
    · intro he
      simp at he
    · intro he
      have hlen := congrArg List.length he
      simp at hlen
  have hstem : pathStem (s4 ++ ".md".data) = s4 := by
    unfold pathStem
    rw [hpn]
    exact pathStemOfName_append_md hne
  simp only [sanitize_filename]
  rw [hstem, replaceChar_noop hsp,
    List.filter_eq_self.mpr (fun c hc => by rw [hbad c hc]; rfl),
    collapseUnd_id hnd, hstrip]

/-- The output of `sanitize_filename` is a stem with all the invariants the
second pass needs, followed by `".md"`. -/
theorem sanitize_props (name : List Char) :
    ∃ s4, sanitize_filename name = s4 ++ ".md".data ∧
      ' ' ∉ s4 ∧ (∀ c ∈ s4, badFileChars.contains c = false) ∧
      noDUnd s4 = true ∧ stripUnd s4 = s4 ∧ '/' ∉ s4 := by
  refine ⟨stripUnd (collapseUnd ((replaceChar ' ' ['_'] (pathStem name)).filter
      (fun c => !(badFileChars.contains c)))), rfl, ?_, ?_, ?_, ?_, ?_⟩
  · intro h
    have h1 := collapseUndF_sub _ false (mem_stripUnd h)
    have h2 := List.mem_of_mem_filter h1
    exact not_mem_replaceChar_self (by decide) h2
  · intro c hc
    have h1 := collapseUndF_sub _ false (mem_stripUnd hc)
    have h2 := List.of_mem_filter h1
    simpa using h2
  · exact noDUnd_stripUnd (collapseUndF_noDUnd _ false)
  · exact stripUnd_idem _
  · intro h
    have h1 := collapseUndF_sub _ false (mem_stripUnd h)
    have h2 := List.mem_of_mem_filter h1
    rcases mem_replaceChar h2 with h3 | h3
    · exact absurd h3 (by decide)
    · exact pathStem_no_slash name h3

theorem sanitize_filename_idem {name : List Char}
    (h : sanitize_filename name ≠ ".md".data) :
    sanitize_filename (sanitize_filename name) = sanitize_filename name := by
  obtain ⟨s4, heq, hsp, hbad, hnd, hstrip, hsl⟩ := sanitize_props name
  have hne : s4 ≠ [] := by
    intro he
    rw [he] at heq
    exact h (by rw [heq]; rfl)
  rw [heq]
  exact sanitize_second_pass hne hsp hbad hnd hstrip hsl

theorem sanitize_filename_md {name : List Char} (h : sanitize_filename name = ".md".data) :
    sanitize_filename (sanitize_filename name) = ".md.md".data := by
  rw [h]
  decide

end SanitizeIdem

section SpecClean

/-- Specification-side formulation of the newline collapse ("collapse runs
of ≥4 newlines to exactly 3"): a state machine that counts the newlines of
the current run and emits at most the first three of each run. -/
def nlColSM : Nat → List Char → List Char
  | _, [] => []
  | k, c :: t =>
    if c == '\n' then (if k < 3 then ['\n'] else []) ++ nlColSM (k + 1) t
    else c :: nlColSM 0 t

/-- Join a list of lines with newline separators. -/
def joinNl : List (List Char) → List Char
  | [] => []
  | [a] => a
  | a :: b :: t => a ++ '\n' :: joinNl (b :: t)

/-- Specification-side formulation of the per-line strip ("strip trailing
horizontal whitespace per line"): split into lines, strip each line's
trailing spaces and tabs, join back. -/
def specStripLines (s : List Char) : List Char :=
  joinNl ((splitOnC '\n' s).map rstripHT)

/-- Specification-side `cleanMarkdown`: collapse newline runs with the
counting state machine, strip every line, then `rstrip` and add the single
trailing newline. -/
def specClean (s : List Char) : List Char :=
  rstripWs (specStripLines (nlColSM 0 s)) ++ ['\n']

theorem nlColSM_cons (k : Nat) (c : Char) (t : List Char) :
    nlColSM k (c :: t) =
      if c == '\n' then (if k < 3 then ['\n'] else []) ++ nlColSM (k + 1) t
      else c :: nlColSM 0 t := rfl

theorem nlColSM_noNl_head (k : Nat) (rest : List Char)
    (h : ∀ r', rest ≠ '\n' :: r') : nlColSM k rest = nlColSM 0 rest := by
  cases rest with
  | nil => rfl
  | cons c t =>
    have hc : (c == '\n') = false := by
      by_cases hcc : c = '\n'
      · exact absurd (by rw [hcc]) (h t)
      · simpa using hcc
    rw [nlColSM_cons, nlColSM_cons, if_neg (by rw [hc]; exact Bool.false_ne_true),
      if_neg (by rw [hc]; exact Bool.false_ne_true)]

theorem nlColSM_run : ∀ (M k : Nat) (rest : List Char), (∀ r', rest ≠ '\n' :: r') →
    nlColSM k (List.replicate M '\n' ++ rest) =
      List.replicate (min M (3 - k)) '\n' ++ nlColSM 0 rest := by
  intro M
  induction M with
  | zero =>
    intro k rest h
    have hmin : min 0 (3 - k) = 0 := by omega
    rw [hmin]
    simpa using nlColSM_noNl_head k rest h
  | succ M ih =>
    intro k rest h
    rw [List.replicate_succ, List.cons_append, nlColSM_cons,
      if_pos (by decide : (('\n' == '\n') : Bool) = true), ih (k + 1) rest h]
    by_cases hk : k < 3
    · rw [if_pos hk]
      have harith : min (M + 1) (3 - k) = min M (3 - (k + 1)) + 1 := by omega
      rw [harith, List.replicate_succ]
      simp
    · rw [if_neg hk]
      have h1 : min M (3 - (k + 1)) = 0 := by omega
      have h2 : min (M + 1) (3 - k) = 0 := by omega
      rw [h1, h2]
      rfl

theorem nlCollapse_eq_SM : ∀ (n : Nat) (s : List Char), s.length ≤ n →
    nlCollapse s = nlColSM 0 s := by
  intro n
  induction n with
  | zero =>
    intro s h
    have hs : s = [] := List.length_eq_zero.mp (Nat.le_zero.mp h)
    subst hs
    rfl
  | succ n ih =>
    intro s h
    cases s with
    | nil => rfl
    | cons c t =>
      simp only [List.length_cons] at h
      by_cases hc : (c == '\n') = true
      · have hce : c = '\n' := by simpa using hc
        subst hce
        rw [nlCollapse_nl]
        have hm : t.takeWhile (· == '\n') =
            List.replicate (t.takeWhile (· == '\n')).length '\n' :=
          List.eq_replicate_iff.mpr ⟨rfl, fun b hb => by
            simpa using mem_takeWhile_pred (· == '\n') hb⟩
        have hrest : ∀ r', t.dropWhile (· == '\n') ≠ '\n' :: r' := by
          intro r' hr
          have hh := dropWhile_head_not hr
          simp at hh
        have hdecomp : ('\n' :: t) =
            List.replicate ((t.takeWhile (· == '\n')).length + 1) '\n' ++
              t.dropWhile (· == '\n') := by
          rw [List.replicate_succ, List.cons_append, ← hm,
            List.takeWhile_append_dropWhile]
        have hsm : nlColSM 0 ('\n' :: t) =
            List.replicate (min ((t.takeWhile (· == '\n')).length + 1) (3 - 0)) '\n' ++
              nlColSM 0 (t.dropWhile (· == '\n')) := by
          conv_lhs => rw [hdecomp]
          exact nlColSM_run _ 0 _ hrest
        have hlen := length_dropWhileP (· == '\n') t
        rw [hsm, ← ih (t.dropWhile (· == '\n')) (by omega)]
        congr 1
        by_cases h3 : 3 ≤ (t.takeWhile (· == '\n')).length
        · rw [if_pos h3]
          have hmin : min ((t.takeWhile (· == '\n')).length + 1) (3 - 0) = 3 := by omega
          rw [hmin]
          rfl
        · rw [if_neg h3]
          have hmin : min ((t.takeWhile (· == '\n')).length + 1) (3 - 0) =
              (t.takeWhile (· == '\n')).length + 1 := by omega
          rw [hmin, List.replicate_succ, ← hm]
      · have hcf : (c == '\n') = false := Bool.eq_false_iff.mpr hc
        rw [nlCollapse_cons t hcf, nlColSM_cons,
          if_neg (by rw [hcf]; exact Bool.false_ne_true), ih t (by omega)]

theorem nlCollapse_SM (s : List Char) : nlCollapse s = nlColSM 0 s :=
  nlCollapse_eq_SM s.length s (Nat.le_refl _)

theorem splitOnCF_fuel : ∀ (n m : Nat) (sep : Char) (s : List Char),
    s.length < n → s.length < m → splitOnCF n sep s = splitOnCF m sep s := by
  intro n
  induction n with
  | zero => intro m sep s hn _; exact absurd hn (Nat.not_lt_zero _)
  | succ n ih =>
    intro m sep s hn hm
    cases m with
    | zero => exact absurd hm (Nat.not_lt_zero _)
    | succ m =>
      simp only [splitOnCF]
      cases hr : s.dropWhile (· != sep) with
      | nil => rfl
      | cons d rest =>
        have hlen := length_dropWhileP (· != sep) s
        rw [hr] at hlen
        simp only [List.length_cons] at hlen
        show s.takeWhile (· != sep) :: splitOnCF n sep rest =
          s.takeWhile (· != sep) :: splitOnCF m sep rest
        rw [ih m sep rest (by omega) (by omega)]

theorem splitOnC_noSep {sep : Char} {s : List Char}
    (h : s.dropWhile (· != sep) = []) : splitOnC sep s = [s] := by
  show splitOnCF (s.length + 1) sep s = _
  simp only [splitOnCF, h]
  rw [List.takeWhile_eq_self_iff.mpr (List.dropWhile_eq_nil_iff.mp h)]

theorem splitOnC_step {sep d : Char} {s r : List Char}
    (h : s.dropWhile (· != sep) = d :: r) :
    splitOnC sep s = s.takeWhile (· != sep) :: splitOnC sep r := by
  show splitOnCF (s.length + 1) sep s = _
  simp only [splitOnCF, h]
  have hlen := length_dropWhileP (· != sep) s
  rw [h] at hlen
  simp only [List.length_cons] at hlen
  rw [splitOnCF_fuel s.length (r.length + 1) sep r (by omega) (by omega)]
  rfl

theorem splitOnC_ne_nil (sep : Char) (s : List Char) : splitOnC sep s ≠ [] := by
  cases hr : s.dropWhile (· != sep) with
  | nil => rw [splitOnC_noSep hr]; exact List.cons_ne_nil _ _
  | cons d r => rw [splitOnC_step hr]; exact List.cons_ne_nil _ _

theorem joinNl_cons_ne {a : List Char} {L : List (List Char)} (h : L ≠ []) :
    joinNl (a :: L) = a ++ '\n' :: joinNl L := by
  cases L with
  | nil => exact absurd rfl h
  | cons b t => rfl

theorem stripLines_eq_spec : ∀ (n : Nat) (s : List Char), s.length ≤ n →
    stripLines s = specStripLines s := by
  intro n
  induction n with
  | zero =>
    intro s h
    have hs : s = [] := List.length_eq_zero.mp (Nat.le_zero.mp h)
    subst hs
    rfl
  | succ n ih =>
    intro s h
    unfold specStripLines
    cases hr : s.dropWhile (· != '\n') with
    | nil =>
      rw [stripLines_noNl hr, splitOnC_noSep hr]
      rfl
    | cons d r =>
      have hlen := length_dropWhileP (· != '\n') s
      rw [hr] at hlen
      simp only [List.length_cons] at hlen
      rw [stripLines_step hr, ih r (by omega), splitOnC_step hr, List.map_cons,
        joinNl_cons_ne (by
          intro hmap
          exact splitOnC_ne_nil '\n' r (List.map_eq_nil_iff.mp hmap))]
      rfl

theorem clean_markdown_eq_spec (t : List Char) : clean_markdown t = specClean t := by
  unfold clean_markdown specClean
  rw [nlCollapse_SM, stripLines_eq_spec (nlColSM 0 t).length _ (Nat.le_refl _)]

theorem clean_markdown_trailing (t : List Char) :
    ∃ u, clean_markdown t = u ++ ['\n'] ∧ rstripP (fun c => c == '\n') u = u := by
  refine ⟨rstripWs (stripLines (nlCollapse t)), rfl, ?_⟩
  rcases List.eq_nil_or_concat (rstripWs (stripLines (nlCollapse t))) with hnil | ⟨r, c, hrc⟩
  · rw [hnil]
    rfl
  · rw [List.concat_eq_append] at hrc
    rw [hrc]
    refine rstripP_concat_not ?_
    have hnp : isPyWs c = false := rstripP_last_not hrc
    by_cases hc : c = '\n'
    · rw [hc] at hnp
      exact absurd hnp (by decide)
    · simpa using hc

end SpecClean

section OrderedPipelines

/-- Specification-side ordered DOCX pipeline (the §4.5 ordering sentence):
the body is finalized first — cleanup, then optional link-stripping — the
title and word count are computed from that finalized body, and the
frontmatter is prepended only afterwards, so cleanup and link-stripping
never touch the frontmatter.  This variant renders the YAML values
unescaped, as `src/mdconv/converters/docx.py` does. -/
def docxOrderedNoEscape (md_text docx_path : List Char)
    (outExists force strip_links_flag : Bool) : ConvResult :=
  let out_name := sanitize_filename (pathName docx_path)
  if outExists && !force then
    { success := true, line := "  SKIP (exists): ".data ++ out_name, written := none }
  else
    let body0 := clean_markdown md_text
    let body := if strip_links_flag then strip_links body0 else body0
    let title := extract_title body (pathStem docx_path)
    let word_count := (pyTokens body).length
    let frontmatter :=
      "---\ntitle: \"".data ++ title ++ "\"\nsource_file: \"".data ++
        pathName docx_path ++ "\"\nword_count: ".data ++ natChars word_count ++
        "\ntype: docx\n---\n\n".data
    { success := true,
      line := "  OK: ".data ++ out_name ++ " (".data ++ natChars word_count ++
        " words)".data,
      written := some (frontmatter ++ body) }

/-- Specification-side ordered DOCX pipeline with escaped YAML values (the
ordering of §4.5 combined with the escaping of `src/any2md`). -/
def docxOrderedEscaped (md_text docx_path : List Char)
    (outExists force strip_links_flag : Bool) : ConvResult :=
  let out_name := sanitize_filename (pathName docx_path)
  if outExists && !force then
    { success := true, line := "  SKIP (exists): ".data ++ out_name, written := none }
  else
    let body0 := clean_markdown md_text
    let body := if strip_links_flag then strip_links body0 else body0
    let title := extract_title body (pathStem docx_path)
    let word_count := (pyTokens body).length
    let frontmatter :=
      "---\ntitle: \"".data ++ escape_yaml_string title ++
        "\"\nsource_file: \"".data ++ escape_yaml_string (pathName docx_path) ++
        "\"\nword_count: ".data ++ natChars word_count ++ "\ntype: docx\n---\n\n".data
    { success := true,
      line := "  OK: ".data ++ out_name ++ " (".data ++ natChars word_count ++
        " words)".data,
      written := some (frontmatter ++ body) }

/-- Specification-side ordered PDF pipeline: finalized body first, title
from the body, escaped frontmatter prepended afterwards. -/
def pdfOrdered (md_text pdf_path : List Char) (page_count : Nat)
    (outExists force strip_links_flag : Bool) : ConvResult :=
  let out_name := sanitize_filename (pathName pdf_path)
  if outExists && !force then
    { success := true, line := "  SKIP (exists): ".data ++ out_name, written := none }
  else
    let body0 := clean_markdown md_text
    let body := if strip_links_flag then strip_links body0 else body0
    let title := extract_title body (pathStem pdf_path)
    let frontmatter :=
      "---\ntitle: \"".data ++ escape_yaml_string title ++
        "\"\nsource_file: \"".data ++ escape_yaml_string (pathName pdf_path) ++
        "\"\npages: ".data ++ natChars page_count ++ "\ntype: pdf\n---\n\n".data
    { success := true,
      line := "  OK: ".data ++ out_name ++ " (".data ++ natChars page_count ++
        " pages)".data,
      written := some (frontmatter ++ body) }

/-- Specification-side ordered HTML pipeline: finalized body first, title
and word count from the body, escaped frontmatter prepended afterwards. -/
def htmlOrdered (md_text : List Char) (html_path source_url : Option (List Char))
    (outExists force strip_links_flag : Bool) : ConvResult :=
  match source_url, html_path with
  | none, none =>
    { success := false,
      line := "ValueError: Either source_url or html_path must be provided".data,
      written := none }
  | su, hp =>
    let out_name :=
      match su with
      | some u => url_to_filename u
      | none => sanitize_filename (pathName (hp.getD []))
    if outExists && !force then
      { success := true, line := "  SKIP (exists): ".data ++ out_name, written := none }
    else
      let body0 := clean_markdown md_text
      let body := if strip_links_flag then strip_links body0 else body0
      let fallback :=
        match su, hp with
        | some u, _ => (urlParse3 u).2.1
        | none, some p => pathStem p
        | none, none => "untitled".data
      let title := extract_title body fallback
      let word_count := (pyTokens body).length
      let source_field :=
        match su, hp with
        | some u, _ => "source_url: \"".data ++ escape_yaml_string u ++ "\"".data
        | none, some p =>
          "source_file: \"".data ++ escape_yaml_string (pathName p) ++ "\"".data
        | none, none => "source_file: \"unknown\"".data
      let frontmatter :=
        "---\ntitle: \"".data ++ escape_yaml_string title ++ "\"\n".data ++
          source_field ++ "\nword_count: ".data ++ natChars word_count ++
          "\ntype: html\n---\n\n".data
      { success := true,
        line := "  OK: ".data ++ out_name ++ " (".data ++ natChars word_count ++
          " words)".data,
        written := some (frontmatter ++ body) }

theorem pdf_ordered_eq (md p : List Char) (n : Nat) (oe f st : Bool) :
    mdconv.convert_pdf md p n oe f st = pdfOrdered md p n oe f st := rfl

theorem any2md_docx_ordered_eq (md p : List Char) (oe f st : Bool) :
    any2md.convert_docx md p oe f st = docxOrderedEscaped md p oe f st := rfl

theorem html_ordered_eq (md : List Char) (hp su : Option (List Char)) (oe f st : Bool) :
    mdconv.convert_html md hp su oe f st = htmlOrdered md hp su oe f st := by
  cases su <;> cases hp <;> rfl

theorem mdconv_docx_ordered_noStrip (md p : List Char) (oe f : Bool) :
    mdconv.convert_docx md p oe f false = docxOrderedNoEscape md p oe f false := by
  by_cases hskip : (oe && !f) = true
  · simp only [mdconv.convert_docx, docxOrderedNoEscape, hskip, if_true]
  · have hskip' : (oe && !f) = false := Bool.eq_false_iff.mpr hskip
    simp only [mdconv.convert_docx, docxOrderedNoEscape, hskip', Bool.false_eq_true,
      if_false]
    rw [extract_title_clean, pyTokens_clean]

end OrderedPipelines

section ImageLinkAux

theorem strip_links_image_aux (alt url post : List Char)
    (ha : alt ≠ []) (hma : ∀ c ∈ alt, (c != ']') = true)
    (hu : url ≠ []) (hmu : ∀ c ∈ url, (c != ')') = true) :
    ∀ pre : List Char, (∀ c ∈ pre, (c == '[') = false) →
      strip_links (pre ++ '!' :: '[' :: (alt ++ ']' :: '(' :: (url ++ ')' :: post))) =
        pre ++ '!' :: (alt ++ strip_links post) := by
  intro pre
  induction pre with
  | nil =>
    intro _
    simp only [List.nil_append]
    rw [strip_links_pass _ (by decide), strip_links_match alt url post ha hma hu hmu]
  | cons c t ih =>
    intro hpre
    rw [List.cons_append, strip_links_pass _ (hpre c (List.mem_cons_self c t)),
      ih (fun x hx => hpre x (List.mem_cons_of_mem _ hx))]
    rfl

end ImageLinkAux

section Claims

/-- C1 (amended): the PDF converter, the any2md DOCX converter and the HTML
converter follow the specified ordering for every input — the body is
finalized first (cleanup, then optional link-stripping), the title and the
word count come from the finalized body, and the frontmatter is prepended
only afterwards — and the mdconv DOCX converter follows that ordering
whenever link-stripping is off.  (With link-stripping on, the mdconv DOCX
converter violates the ordering: see the counterexample.) -/
theorem C1_ordering_amended :
    (∀ (md p : List Char) (n : Nat) (oe f st : Bool),
      mdconv.convert_pdf md p n oe f st = pdfOrdered md p n oe f st) ∧
    (∀ (md p : List Char) (oe f st : Bool),
      any2md.convert_docx md p oe f st = docxOrderedEscaped md p oe f st) ∧
    (∀ (md : List Char) (hp su : Option (List Char)) (oe f st : Bool),
      mdconv.convert_html md hp su oe f st = htmlOrdered md hp su oe f st) ∧
    (∀ (md p : List Char) (oe f : Bool),
      mdconv.convert_docx md p oe f false = docxOrderedNoEscape md p oe f false) :=
  ⟨pdf_ordered_eq, any2md_docx_ordered_eq, html_ordered_eq, mdconv_docx_ordered_noStrip⟩

/-- C1 counterexample: with link-stripping enabled, the mdconv DOCX
converter runs strip_links over the concatenation of frontmatter and body,
so a bracket in the title and a parenthesised source filename are mangled
and the output differs from the body-only ordered pipeline. -/
theorem C1_ordering_cex :
    mdconv.convert_docx "# [Hello World Extra\n\nBody text".data "x](u).docx".data
        false false true ≠
      docxOrderedNoEscape "# [Hello World Extra\n\nBody text".data "x](u).docx".data
        false false true := by
  decide

/-- C2: with link-stripping off and no backslash or double quote in the
title or the source filename, the two DOCX converter variants produce the
same result (same status line and identical output file contents). -/
theorem C2_docx_variants :
    ∀ (md p : List Char) (oe f : Bool),
      '\\' ∉ extract_title md (pathStem p) → '"' ∉ extract_title md (pathStem p) →
      '\\' ∉ pathName p → '"' ∉ pathName p →
      mdconv.convert_docx md p oe f false = any2md.convert_docx md p oe f false := by
  intro md p oe f h1 h2 h3 h4
  by_cases hskip : (oe && !f) = true
  · simp only [mdconv.convert_docx, any2md.convert_docx, hskip, if_true]
  · have hskip' : (oe && !f) = false := Bool.eq_false_iff.mpr hskip
    simp only [mdconv.convert_docx, any2md.convert_docx, hskip', Bool.false_eq_true,
      if_false]
    rw [extract_title_clean, pyTokens_clean, escape_yaml_noop h1 h2,
      escape_yaml_noop h3 h4]

theorem C2_docx_variants_witness :
    mdconv.convert_docx "# Sample Long Title\n\nBody words here".data "report.docx".data
        false false false =
      any2md.convert_docx "# Sample Long Title\n\nBody words here".data "report.docx".data
        false false false :=
  C2_docx_variants "# Sample Long Title\n\nBody words here".data "report.docx".data
    false false (by decide) (by decide) (by decide) (by decide)

/-- C3: for a URL whose parsed scheme is neither http nor https, fetch_url
returns the unsupported-scheme error, its result does not depend on the
network oracle (no network call is made), and the URL conversion reports a
failure line and writes no file. -/
theorem C3_unsupported_scheme :
    ∀ (url : List Char) (f g : List Char → Except (List Char) (Option (List Char)))
      (extract : List Char → List Char) (oe fo st : Bool),
      (urlParse3 url).1 ≠ "http".data → (urlParse3 url).1 ≠ "https".data →
      fetch_url f url = Except.error ("Unsupported URL scheme: '".data ++
          (urlParse3 url).1 ++ "' (only http/https allowed)".data) ∧
      fetch_url f url = fetch_url g url ∧
      convert_from_url f extract url oe fo st =
        { success := false,
          line := "  FAIL: ".data ++ url ++ " -- ".data ++
            ("Unsupported URL scheme: '".data ++ (urlParse3 url).1 ++
              "' (only http/https allowed)".data),
          written := none } := by
  intro url f g extract oe fo st h1 h2
  have hcond : ¬ ((urlParse3 url).1 = "http".data ∨ (urlParse3 url).1 = "https".data) := by
    rintro (h | h)
    · exact h1 h
    · exact h2 h
  have hf : fetch_url f url = Except.error ("Unsupported URL scheme: '".data ++
      (urlParse3 url).1 ++ "' (only http/https allowed)".data) := by
    unfold fetch_url
    rw [if_neg hcond]
  have hg : fetch_url g url = Except.error ("Unsupported URL scheme: '".data ++
      (urlParse3 url).1 ++ "' (only http/https allowed)".data) := by
    unfold fetch_url
    rw [if_neg hcond]
  refine ⟨hf, by rw [hf, hg], ?_⟩
  unfold convert_from_url
  rw [hf]

theorem C3_unsupported_scheme_witness :
    fetch_url (fun _ => Except.ok none) "ftp://example.com/f".data =
      Except.error ("Unsupported URL scheme: '".data ++
        (urlParse3 "ftp://example.com/f".data).1 ++ "' (only http/https allowed)".data) ∧
    fetch_url (fun _ => Except.ok none) "ftp://example.com/f".data =
      fetch_url (fun _ => Except.error []) "ftp://example.com/f".data ∧
    convert_from_url (fun _ => Except.ok none) (fun h => h) "ftp://example.com/f".data
        false false false =
      { success := false,
        line := "  FAIL: ".data ++ "ftp://example.com/f".data ++ " -- ".data ++
          ("Unsupported URL scheme: '".data ++ (urlParse3 "ftp://example.com/f".data).1 ++
            "' (only http/https allowed)".data),
        written := none } :=
  C3_unsupported_scheme "ftp://example.com/f".data (fun _ => Except.ok none)
    (fun _ => Except.error []) (fun h => h) false false false (by decide) (by decide)

/-- C4: when the derived output path exists and force is false, every
converter (both DOCX variants, PDF, and HTML from a URL or from a file)
returns success with a SKIP line naming the derived output file, and
writes nothing. -/
theorem C4_skip_when_exists :
    (∀ (md p : List Char) (st : Bool), mdconv.convert_docx md p true false st =
      { success := true, line := "  SKIP (exists): ".data ++ sanitize_filename (pathName p),
        written := none }) ∧
    (∀ (md p : List Char) (n : Nat) (st : Bool), mdconv.convert_pdf md p n true false st =
      { success := true, line := "  SKIP (exists): ".data ++ sanitize_filename (pathName p),
        written := none }) ∧
    (∀ (md p : List Char) (st : Bool), any2md.convert_docx md p true false st =
      { success := true, line := "  SKIP (exists): ".data ++ sanitize_filename (pathName p),
        written := none }) ∧
    (∀ (md u : List Char) (st : Bool), mdconv.convert_html md none (some u) true false st =
      { success := true, line := "  SKIP (exists): ".data ++ url_to_filename u,
        written := none }) ∧
    (∀ (md p : List Char) (st : Bool), mdconv.convert_html md (some p) none true false st =
      { success := true, line := "  SKIP (exists): ".data ++ sanitize_filename (pathName p),
        written := none }) :=
  ⟨fun _ _ _ => rfl, fun _ _ _ _ => rfl, fun _ _ _ => rfl, fun _ _ _ => rfl,
    fun _ _ _ => rfl⟩

/-- C5 (amended): sanitize_filename is idempotent on every input whose
sanitized form is not the bare ".md"; on the degenerate inputs whose
sanitized stem is empty (output exactly ".md"), a second application
yields ".md.md" instead. -/
theorem C5_sanitize_idem_amended :
    ∀ name : List Char,
      (sanitize_filename name ≠ ".md".data →
        sanitize_filename (sanitize_filename name) = sanitize_filename name) ∧
      (sanitize_filename name = ".md".data →
        sanitize_filename (sanitize_filename name) = ".md.md".data) :=
  fun _ => ⟨fun h => sanitize_filename_idem h, fun h => sanitize_filename_md h⟩

/-- C5 counterexample: "___" sanitizes to ".md", and ".md" sanitizes to
".md.md", so sanitize_filename is not idempotent. -/
theorem C5_sanitize_cex :
    sanitize_filename (sanitize_filename "___".data) ≠ sanitize_filename "___".data := by
  decide

theorem C5_sanitize_idem_witness :
    sanitize_filename "doc.txt".data ≠ ".md".data ∧
    sanitize_filename (sanitize_filename "doc.txt".data) = sanitize_filename "doc.txt".data :=
  ⟨by decide, (C5_sanitize_idem_amended "doc.txt".data).1 (by decide)⟩

/-- C6: clean_markdown equals the specification pipeline (newline runs
collapsed so that at most three consecutive newlines are kept, trailing
horizontal whitespace stripped per line, trailing whitespace removed and a
single newline appended), its output always ends in exactly one newline,
and the spec's example collapses five newlines to three. -/
theorem C6_clean_markdown_spec :
    (∀ t : List Char, clean_markdown t = specClean t) ∧
    (∀ t : List Char, ∃ u, clean_markdown t = u ++ ['\n'] ∧
      rstripP (fun c => c == '\n') u = u) ∧
    clean_markdown "a\n\n\n\n\nb\n".data = "a\n\n\nb\n".data :=
  ⟨clean_markdown_eq_spec, clean_markdown_trailing, by decide⟩

/-- C7 (amended): extract_title returns the cleaned title of the first
level-1..3 heading when that cleaned title is longer than 10 characters
(the line-core characterization Bne), and otherwise returns the fallback
with underscores replaced by spaces AND surrounding whitespace stripped;
the spec's two examples hold. -/
theorem C7_extract_title_amended :
    (∀ md fb : List Char,
      extract_title md fb =
        (Bne (nePieces md)).getD (pyStrip (replaceChar '_' [' '] fb))) ∧
    extract_title "# My Document\n\nBody".data "fallback".data = "My Document".data ∧
    extract_title "no heading here".data "my_file".data = "my file".data := by
  refine ⟨fun md fb => ?_, by decide, by decide⟩
  rw [extract_title_eq_getD, bigTitle_eq_Bne]
  rfl

/-- C7 counterexample: on the fallback "_my_file_" the code returns
"my file" (underscores replaced, then stripped), not " my file " as the
replace-only description would give. -/
theorem C7_extract_title_cex :
    extract_title [] "_my_file_".data ≠ replaceChar '_' [' '] "_my_file_".data := by
  decide

/-- C8: escape_yaml_string acts per character — each backslash becomes two
backslashes and each double quote gains a preceding backslash, with the
inserted backslashes never re-escaped (the effect of escaping backslashes
first and quotes second) — and the spec's example holds. -/
theorem C8_escape_yaml_order :
    (∀ s : List Char, escape_yaml_string s = concatMapChar escYamlChar s) ∧
    escape_yaml_string "He said \"hi\"\\".data = "He said \\\"hi\\\"\\\\".data :=
  ⟨escape_yaml_eq_concatMap, by decide⟩

/-- C9: strip_links also rewrites markdown image syntax: an occurrence of
![alt](url) (with well-formed label and URL, not preceded by an earlier
opening bracket) is rewritten to !alt; in particular on the image example
the result is "!logo". -/
theorem C9_strip_links_images :
    (∀ pre alt url post : List Char,
      '[' ∉ pre → alt ≠ [] → ']' ∉ alt → url ≠ [] → ')' ∉ url →
      strip_links (pre ++ '!' :: '[' :: (alt ++ ']' :: '(' :: (url ++ ')' :: post))) =
        pre ++ '!' :: (alt ++ strip_links post)) ∧
    strip_links "![logo](http://x/a.png)".data = "!logo".data := by
  constructor
  · intro pre alt url post hpre ha hma hu hmu
    refine strip_links_image_aux alt url post ha ?_ hu ?_ pre ?_
    · intro c hc
      have hne : c ≠ ']' := fun he => hma (he ▸ hc)
      simpa using hne
    · intro c hc
      have hne : c ≠ ')' := fun he => hmu (he ▸ hc)
      simpa using hne
    · intro c hc
      have hne : c ≠ '[' := fun he => hpre (he ▸ hc)
      exact beq_eq_false_iff_ne.mpr hne
  · decide

theorem C9_strip_links_images_witness :
    strip_links ("see ".data ++ '!' :: '[' :: ("logo".data ++ ']' :: '(' ::
        ("http://x/a.png".data ++ ')' :: " end".data))) =
      "see ".data ++ '!' :: ("logo".data ++ strip_links " end".data) :=
  C9_strip_links_images.1 "see ".data "logo".data "http://x/a.png".data " end".data
    (by decide) (by decide) (by decide) (by decide) (by decide)

/-- C10: newline runs are collapsed before trailing whitespace is
stripped, so blank lines holding a single space escape the collapse: on
"a" followed by four space-only lines and "b", the cleaned output still
holds a run of four consecutive newlines, and cleaning a second time
changes the result — clean_markdown is not idempotent. -/
theorem C10_clean_not_idempotent :
    ['\n', '\n', '\n', '\n'] <:+: clean_markdown "a\n \n \n \n \nb".data ∧
    clean_markdown (clean_markdown "a\n \n \n \n \nb".data) ≠
      clean_markdown "a\n \n \n \n \nb".data :=
  ⟨by decide, by decide⟩

end Claims
